import Mathlib

/-!
# Calculator (script.js)

A shallow embedding of the `Calculator` class of `script.js` and the
verification of its expression buffer, its history log and its evaluation
pipeline.

Texts are lists of characters, one `Char` for each UTF-16 code unit of the
JavaScript string.  This covers every text whose characters lie in the Basic
Multilingual Plane, which contains the whole alphabet of the calculator
(digits, operators, `π`, `√`, `×`, `÷`, `−` and the Devanagari digits).
-/

namespace Calculator

/-- A JavaScript string, as the list of its code units. -/
abbrev Text := List Char

/-! ## String primitives of the host language -/

/-- The character class `[0-9]` (also `\d`, which is ASCII-only in JavaScript). -/
def isDigit (c : Char) : Bool := decide ('0' ≤ c) && decide (c ≤ '9')

/-- The call `str.replace(re, f)` for a global regular expression `re` all of
whose matches are one code unit long.  `matchAt` receives the text from the
current position on (so that a lookahead can inspect what follows) and says
whether `re` matches there; `repl` is the replacement for the matched code
unit.  Scanning resumes right after the match. -/
def replaceAll (matchAt : Text → Bool) (repl : Char → Text) : Text → Text
  | [] => []
  | c :: rest =>
    if matchAt (c :: rest) then repl c ++ replaceAll matchAt repl rest
    else c :: replaceAll matchAt repl rest

/-- The call `str.replace(/c/g, sub)` for a single literal character `c`. -/
def replaceChar (c : Char) (sub : Text) (str : Text) : Text :=
  replaceAll (fun t => t.head? == some c) (fun _ => sub) str

/-- The call `str.slice(0, -n)` for `n ≥ 0`: the text without its last `n` code
units (`-0` is `0`, so `slice(0, -0)` is empty). -/
def sliceDropLast (str : Text) (n : Nat) : Text :=
  if n = 0 then [] else str.take (str.length - n)

/-- The call `str.slice(-1)`: the last code unit as a text, empty for the empty text. -/
def sliceLast (str : Text) : Text :=
  str.drop (str.length - 1)

/-- The call `str.endsWith(f)`. -/
def endsWith (str f : Text) : Bool := f.isSuffixOf str

/-- The value of `(str.match(/c/g) || []).length`: the number of occurrences of `c`. -/
def matchCount (c : Char) (str : Text) : Nat := str.count c

/-! ## Data model -/

/-- An element of `this.history`: the object `{ expression: exp, result: res }`. -/
structure HistoryEntry where
  expression : Text
  result : Text
deriving DecidableEq, Repr

/-! ## Numbers of the host language -/

/-- A JavaScript Number (an IEEE 754 binary64 value).  `fin neg m e` is the
finite value `(-1)^neg * m * 2^e`, kept with `m` odd, or with `m = 0` and
`e = 0` for the two zeros; `inf neg` is `Infinity` or `-Infinity`. -/
inductive JSNumber where
  | fin (neg : Bool) (m : Nat) (e : Int)
  | inf (neg : Bool)
  | nan
deriving DecidableEq, Repr

namespace JSNumber

/-- For `0 < n < 2^(2^k)`: the exponent of the greatest power of two that is at
most `n`, by bisection of the exponent range. -/
def floorLog2Aux : Nat → Nat → Nat
  | 0, _ => 0
  | k + 1, n =>
    if 2 ^ 2 ^ k ≤ n then 2 ^ k + floorLog2Aux k (n / 2 ^ 2 ^ k) else floorLog2Aux k n

/-- For `0 < n < 2^4096`: the exponent of the greatest power of two that is at most `n`. -/
def floorLog2 (n : Nat) : Nat := floorLog2Aux 12 n

/-- The representation of `m * 2^e` with an odd `m` (for `0 < m < 2^1100`). -/
def canon (neg : Bool) (m : Nat) (e : Int) : JSNumber :=
  let g := Nat.gcd m (2 ^ 1100)
  .fin neg (m / g) (e + (floorLog2 g : Int))

/-- Whether `q * 2^d ≤ p`. -/
def scaledLe (q p : Nat) (d : Int) : Bool :=
  if d < 0 then decide (q ≤ p * 2 ^ d.natAbs) else decide (q * 2 ^ d.natAbs ≤ p)

/-- For `p, q > 0`: the integer `ex` with `2^ex ≤ p / q < 2^(ex + 1)`. -/
def binaryExponent (p q : Nat) : Int :=
  let d : Int := (floorLog2 p : Int) - (floorLog2 q : Int)
  if scaledLe q p d then d else d - 1

/-- The binary64 value nearest to `(-1)^neg * p / q` (for `q > 0`), ties to the
even significand: round to nearest of IEEE 754, with gradual underflow
below `2^-1022` and overflow to infinity from `2^1024` on. -/
def roundQuot (neg : Bool) (p q : Nat) : JSNumber :=
  if p = 0 then .fin neg 0 0
  else
    -- the exponent of the unit in the last place: 53 significant bits, at least `2^-1074`
    let qe : Int := max (binaryExponent p q - 52) (-1074)
    -- `p / q = (n / dn) * 2^qe`
    let n := if qe < 0 then p * 2 ^ qe.natAbs else p
    let dn := if qe < 0 then q else q * 2 ^ qe.natAbs
    let m0 := n / dn
    let r := n % dn
    let m := if 2 * r > dn ∨ (2 * r = dn ∧ m0 % 2 = 1) then m0 + 1 else m0
    if m = 0 then .fin neg 0 0
    else if qe > 971 ∨ (qe = 971 ∧ m ≥ 2 ^ 53) then .inf neg
    else canon neg m qe

/-- The Number value of a non-negative integer. -/
def ofNat (n : Nat) : JSNumber := roundQuot false n 1

/-- A finite magnitude `m * 2^e` as a fraction. -/
def fracOf (m : Nat) (e : Int) : Nat × Nat :=
  if e < 0 then (m, 2 ^ e.natAbs) else (m * 2 ^ e.natAbs, 1)

/-- Unary `-`. -/
def neg : JSNumber → JSNumber
  | .fin s m e => .fin (!s) m e
  | .inf s => .inf (!s)
  | .nan => .nan

/-- Binary `+` (Number::add). -/
def add : JSNumber → JSNumber → JSNumber
  | .nan, _ => .nan
  | _, .nan => .nan
  | .inf s, .inf t => if s = t then .inf s else .nan
  | .inf s, .fin _ _ _ => .inf s
  | .fin _ _ _, .inf t => .inf t
  | .fin s m e, .fin t n f =>
    let (a, b) := fracOf m e
    let (c, d) := fracOf n f
    -- the exact sum is `(±a*d ± c*b) / (b*d)`
    let x := a * d
    let y := c * b
    if s = t then
      if x + y = 0 then .fin s 0 0 else roundQuot s (x + y) (b * d)
    else if x = y then .fin false 0 0
    else if y < x then roundQuot s (x - y) (b * d)
    else roundQuot t (y - x) (b * d)

/-- Binary `-` (Number::subtract): `x - y` is `x + (-y)`. -/
def sub (x y : JSNumber) : JSNumber := add x (neg y)

/-- Binary `*` (Number::multiply). -/
def mul : JSNumber → JSNumber → JSNumber
  | .nan, _ => .nan
  | _, .nan => .nan
  | .inf s, .inf t => .inf (xor s t)
  | .inf s, .fin t n _ => if n = 0 then .nan else .inf (xor s t)
  | .fin s m _, .inf t => if m = 0 then .nan else .inf (xor s t)
  | .fin s m e, .fin t n f =>
    let (a, b) := fracOf m e
    let (c, d) := fracOf n f
    roundQuot (xor s t) (a * c) (b * d)

/-- Binary `/` (Number::divide). -/
def div : JSNumber → JSNumber → JSNumber
  | .nan, _ => .nan
  | _, .nan => .nan
  | .inf _, .inf _ => .nan
  | .inf s, .fin t _ _ => .inf (xor s t)
  | .fin s _ _, .inf t => .fin (xor s t) 0 0
  | .fin s m e, .fin t n f =>
    if n = 0 then (if m = 0 then .nan else .inf (xor s t))
    else
      let (a, b) := fracOf m e
      let (c, d) := fracOf n f
      roundQuot (xor s t) (a * d) (b * c)

/-- The function `Math.round`: the integer nearest to `x`, the larger one of two
equally near; `-0` for `-0.5 ≤ x < 0`; `NaN`, the infinities and the zeros
unchanged. -/
def round : JSNumber → JSNumber
  | .nan => .nan
  | .inf s => .inf s
  | .fin s m e =>
    if e ≥ 0 then .fin s m e
    else
      -- `x = ±m / 2^k` with `k > 0`; `floor (x + 1/2)` is computed exactly
      let k := e.natAbs
      let h := 2 ^ (k - 1)
      if s then
        -- `floor (-m/2^k + 1/2) = -ceil ((m - h) / 2^k)`
        if m ≤ h then .fin true 0 0
        else roundQuot true ((m - h + 2 ^ k - 1) / 2 ^ k) 1
      else roundQuot false ((m + h) / 2 ^ k) 1

/-- The value `s * 10^t` as a fraction. -/
def decFrac (s : Nat) (t : Int) : Nat × Nat :=
  if t < 0 then (s, 10 ^ t.natAbs) else (s * 10 ^ t.natAbs, 1)

/-- For `0 < p < q`: the number of zeros between the decimal point and the
first non-zero digit of `p / q`, counted up from `k`. -/
def leadingZeros (p q : Nat) : Nat → Nat → Nat
  | 0, k => k
  | fuel + 1, k => if q ≤ p * 10 ^ (k + 1) then k else leadingZeros p q fuel (k + 1)

/-- For `p, q > 0`: the integer `n` with `10^(n-1) ≤ p / q < 10^n`. -/
def decExponent (p q : Nat) : Int :=
  if q ≤ p then ((Nat.toDigits 10 (p / q)).length : Int)
  else -(leadingZeros p q 400 0 : Int)

/-- The search of Number::toString for a positive finite `v = p / q` with
`10^(n-1) ≤ v < 10^n`: the integers `(s, n')` with `10^(k-1) ≤ s < 10^k` whose
value `s * 10^(n'-k)` has `v` as its Number value, for the least number of
digits `k` (tried upwards from the argument `k`); of two such `s`, the one
nearer to `v`, the even one when both are equally near. -/
def shortest (v : JSNumber) (p q : Nat) (n : Int) : Nat → Nat → Nat × Int
  | 0, _ => (0, n) -- not reached from `k = 1` with 17 steps: 17 digits identify a binary64 value
  | fuel + 1, k =>
    let t : Int := n - k
    -- `v / 10^t` is `num / den`
    let num := if t < 0 then p * 10 ^ t.natAbs else p
    let den := if t < 0 then q else q * 10 ^ t.natAbs
    let lo := num / den
    let r := num % den
    let hi := lo + 1
    let okLo : Bool := decide (10 ^ (k - 1) ≤ lo) &&
      decide (roundQuot false (decFrac lo t).1 (decFrac lo t).2 = v)
    let okHi : Bool := decide (roundQuot false (decFrac hi t).1 (decFrac hi t).2 = v)
    -- `hi = 10^k` stands for the single digit `1` one decimal place higher
    let hiOut : Nat × Int := if hi = 10 ^ k then (10 ^ (k - 1), n + 1) else (hi, n)
    if okLo && okHi then
      if 2 * r < den ∨ (2 * r = den ∧ lo % 2 = 0) then (lo, n) else hiOut
    else if okLo then (lo, n)
    else if okHi then hiOut
    else shortest v p q n fuel (k + 1)

/-- The text of Number::toString for the digits `ds` of `s` and the exponent `n`:
the value is `0.ds × 10^n`. -/
def formatDigits (ds : Text) (n : Int) : Text :=
  let k : Int := ds.length
  if k ≤ n ∧ n ≤ 21 then ds ++ List.replicate (n - k).natAbs '0'
  else if 0 < n ∧ n ≤ 21 then ds.take n.natAbs ++ ['.'] ++ ds.drop n.natAbs
  else if -6 < n ∧ n ≤ 0 then ['0', '.'] ++ List.replicate n.natAbs '0' ++ ds
  else
    let ex : Int := n - 1
    let sign : Char := if ex < 0 then '-' else '+'
    if ds.length = 1 then ds ++ ['e', sign] ++ Nat.toDigits 10 ex.natAbs
    else ds.take 1 ++ ['.'] ++ ds.drop 1 ++ ['e', sign] ++ Nat.toDigits 10 ex.natAbs

/-- The method `toString()` of a Number (Number::toString, radix 10). -/
def toString : JSNumber → Text
  | .nan => "NaN".toList
  | .inf s => if s then "-Infinity".toList else "Infinity".toList
  | .fin s m e =>
    if m = 0 then "0".toList
    else
      let (p, q) := fracOf m e
      let (d, n) := shortest (.fin false m e) p q (decExponent p q) 17 1
      (if s then ['-'] else []) ++ formatDigits (Nat.toDigits 10 d) n

/-- The constant `Math.PI`: the Number value for π. -/
def mathPI : JSNumber := roundQuot false 31415926535897932385 (10 ^ 19)

/-- The constant `Math.E`: the Number value for e. -/
def mathE : JSNumber := roundQuot false 27182818284590452354 (10 ^ 19)

end JSNumber

end Calculator

/-- The fields of a `Calculator` object that hold data (the two DOM elements are
output sinks and carry no state of the calculator). -/
structure Calculator where
  expression : Calculator.Text
  result : Calculator.Text
  locale : Calculator.Text
  history : List Calculator.HistoryEntry
deriving DecidableEq, Repr

namespace Calculator

/-- The state the constructor leaves. -/
def new : Calculator :=
  { expression := [], result := [], locale := "en".toList, history := [] }

/-! ## Locale -/

/-- Method `setLocale(lang)`. -/
def setLocale (c : Calculator) (lang : Text) : Calculator :=
  { c with locale := lang }

/-- The array `hindiDigits`. -/
def hindiDigits : List Char := ['०', '१', '२', '३', '४', '५', '६', '७', '८', '९']

/-- The callback `w => hindiDigits[+w]` of `toHindi`, for a matched digit `w`
(`+w` is the value of the digit). -/
def hindiDigit (w : Char) : Char := hindiDigits.getD (w.toNat - '0'.toNat) w

/-- Method `toHindi(str)`. -/
def toHindi (str : Text) : Text :=
  if str = [] then []
  else replaceAll (fun t => t.head?.any isDigit) (fun w => [hindiDigit w]) str

/-- Method `formatForDisplay(str)`. -/
def formatForDisplay (c : Calculator) (str : Text) : Text :=
  if str = [] then "0".toList
  else if c.locale = "hi".toList then toHindi str
  else str

/-- The text `updateDisplay()` writes to the display element. -/
def displayText (c : Calculator) : Text :=
  formatForDisplay c (if c.expression = [] then "0".toList else c.expression)

/-! ## Buffer operations -/

/-- Method `clear()`. -/
def clear (c : Calculator) : Calculator :=
  { c with expression := [], result := [] }

/-- Method `clearHistory()`. -/
def clearHistory (c : Calculator) : Calculator :=
  { c with history := [] }

/-- The effect of `addToHistory(exp, res)` on the array `this.history`:
nothing when `exp` or `res` is empty or both are equal; otherwise `unshift`
of the new entry, then `pop` when the length exceeds 20. -/
def pushHistory (history : List HistoryEntry) (exp res : Text) : List HistoryEntry :=
  if exp = [] ∨ res = [] ∨ exp = res then history
  else
    let h := { expression := exp, result := res } :: history
    if h.length > 20 then h.dropLast else h

/-- Method `addToHistory(exp, res)`. -/
def addToHistory (c : Calculator) (exp res : Text) : Calculator :=
  { c with history := pushHistory c.history exp res }

/-- The array `funcs` of `delete()`. -/
def funcs : List Text :=
  ["sin(".toList, "cos(".toList, "tan(".toList, "log(".toList, "sqrt(".toList, "ln(".toList]

/-- The `for (let f of funcs)` loop of `delete()`: the expression left by the
first token that the expression ends with, `none` when the loop ends with
`matched` still false. -/
def deleteLoop : List Text → Text → Option Text
  | [], _ => none
  | f :: fs, expression =>
    if endsWith expression f then some (sliceDropLast expression f.length)
    else deleteLoop fs expression

/-- The expression `delete()` leaves, for the token list `fs` in place of `funcs`. -/
def deleteWith (fs : List Text) (expression : Text) : Text :=
  match deleteLoop fs expression with
  | some e => e
  | none => sliceDropLast expression 1

/-- The expression `delete()` leaves. -/
def deleteLast (expression : Text) : Text := deleteWith funcs expression

/-- Method `delete()`. -/
def delete (c : Calculator) : Calculator :=
  { c with expression := deleteLast c.expression }

/-- Method `append(val)`. -/
def append (c : Calculator) (val : Text) : Calculator :=
  { c with expression := c.expression ++ val }

/-- The test `/[0-9.)]/.test(lastChar)` of `bracket()`. -/
def isNum (lastChar : Text) : Bool :=
  lastChar.any (fun ch => isDigit ch || ch == '.' || ch == ')')

/-- The expression `bracket()` leaves. -/
def insertBracket (expression : Text) : Text :=
  let openCount := matchCount '(' expression
  let closeCount := matchCount ')' expression
  let lastChar := sliceLast expression
  if openCount > closeCount ∧ isNum lastChar = true then expression ++ [')']
  else expression ++ ['(']

/-- Method `bracket()`. -/
def bracket (c : Calculator) : Calculator :=
  { c with expression := insertBracket c.expression }

/-! ## Evaluation of the generated function body

`compute` hands the normalized text to `new Function(..., 'return ' + evalString)`
and calls the result.  The evaluator below covers the part of the host
language that the arithmetic of the calculator needs and whose result the
language standard fixes exactly: decimal literals, `Math.PI`, `Math.E`,
the operators `+ - * /` (binary and unary) and parentheses.  Everything else
(function calls, `**`, comments, identifiers, legacy octal literals, ...) is
reported as `unsupported`, never as a value or an exception. -/

/-- What running the generated function does. -/
inductive Outcome (α : Type) where
  | ok (a : α)
  | throws
  | unsupported
deriving DecidableEq, Repr

/-- The tokens of the supported part of the language. -/
inductive Token where
  | num (v : JSNumber)
  | plus
  | minus
  | times
  | divide
  | lparen
  | rparen
deriving DecidableEq, Repr

/-- The value of a string of decimal digits. -/
def digitsValue (ds : Text) : Nat :=
  ds.foldl (fun acc d => 10 * acc + (d.toNat - '0'.toNat)) 0

/-- Whether `c` can continue an identifier or a numeric literal (every
character that is not plain ASCII punctuation is taken to do so). -/
def isWordChar (c : Char) : Bool :=
  !(c == '+' || c == '-' || c == '*' || c == '/' || c == '(' || c == ')')

/-- The Number value of the decimal literal with integer digits `ip` and
fraction digits `fp`, when the standard fixes it: `none` for a literal with
more than 20 digits, for an integer part with a leading zero (legacy octal)
and for a literal without digits. -/
def literalValue (ip fp : Text) : Option JSNumber :=
  if ip.length + fp.length = 0 ∨ ip.length + fp.length > 20 then none
  else if ip.length > 1 ∧ ip.head? = some '0' then none
  else some (JSNumber.roundQuot false (digitsValue (ip ++ fp)) (10 ^ fp.length))

/-- The lexer: `none` when the text leaves the supported part of the language. -/
def lex : Nat → Text → Option (List Token)
  | 0, _ => none
  | _ + 1, [] => some []
  | fuel + 1, c :: rest =>
    if c = '+' then
      if rest.head? = some '+' then none else (lex fuel rest).map (Token.plus :: ·)
    else if c = '-' then
      if rest.head? = some '-' then none else (lex fuel rest).map (Token.minus :: ·)
    else if c = '*' then
      if rest.head? = some '*' then none else (lex fuel rest).map (Token.times :: ·)
    else if c = '/' then
      if rest.head? = some '/' ∨ rest.head? = some '*' then none
      else (lex fuel rest).map (Token.divide :: ·)
    else if c = '(' then (lex fuel rest).map (Token.lparen :: ·)
    else if c = ')' then (lex fuel rest).map (Token.rparen :: ·)
    else if isDigit c ∨ c = '.' then
      let ip := (c :: rest).takeWhile isDigit
      let r1 := (c :: rest).dropWhile isDigit
      let fp := if r1.head? = some '.' then r1.tail.takeWhile isDigit else []
      let r2 := if r1.head? = some '.' then r1.tail.dropWhile isDigit else r1
      if r2.head?.any isWordChar then none
      else
        match literalValue ip fp with
        | none => none
        | some v => (lex fuel r2).map (Token.num v :: ·)
    else if "Math.PI".toList.isPrefixOf (c :: rest) then
      let r := (c :: rest).drop 7
      if r.head?.any isWordChar then none
      else (lex fuel r).map (Token.num JSNumber.mathPI :: ·)
    else if "Math.E".toList.isPrefixOf (c :: rest) then
      let r := (c :: rest).drop 6
      if r.head?.any isWordChar then none
      else (lex fuel r).map (Token.num JSNumber.mathE :: ·)
    else none

mutual

/-- AdditiveExpression. -/
def parseExpr : Nat → List Token → Outcome (JSNumber × List Token)
  | 0, _ => .unsupported
  | fuel + 1, toks =>
    match parseTerm fuel toks with
    | .ok (v, rest) => exprLoop fuel v rest
    | .throws => .throws
    | .unsupported => .unsupported

/-- The operands of `+` and `-` that follow the value `v`, left to right. -/
def exprLoop : Nat → JSNumber → List Token → Outcome (JSNumber × List Token)
  | 0, _, _ => .unsupported
  | fuel + 1, v, .plus :: rest =>
    match parseTerm fuel rest with
    | .ok (w, rest') => exprLoop fuel (JSNumber.add v w) rest'
    | .throws => .throws
    | .unsupported => .unsupported
  | fuel + 1, v, .minus :: rest =>
    match parseTerm fuel rest with
    | .ok (w, rest') => exprLoop fuel (JSNumber.sub v w) rest'
    | .throws => .throws
    | .unsupported => .unsupported
  | _ + 1, v, rest => .ok (v, rest)

/-- MultiplicativeExpression. -/
def parseTerm : Nat → List Token → Outcome (JSNumber × List Token)
  | 0, _ => .unsupported
  | fuel + 1, toks =>
    match parseUnary fuel toks with
    | .ok (v, rest) => termLoop fuel v rest
    | .throws => .throws
    | .unsupported => .unsupported

/-- The operands of `*` and `/` that follow the value `v`, left to right. -/
def termLoop : Nat → JSNumber → List Token → Outcome (JSNumber × List Token)
  | 0, _, _ => .unsupported
  | fuel + 1, v, .times :: rest =>
    match parseUnary fuel rest with
    | .ok (w, rest') => termLoop fuel (JSNumber.mul v w) rest'
    | .throws => .throws
    | .unsupported => .unsupported
  | fuel + 1, v, .divide :: rest =>
    match parseUnary fuel rest with
    | .ok (w, rest') => termLoop fuel (JSNumber.div v w) rest'
    | .throws => .throws
    | .unsupported => .unsupported
  | _ + 1, v, rest => .ok (v, rest)

/-- UnaryExpression and PrimaryExpression.  A SyntaxError is reported where an
operand is due and the text ends or goes on with `)` or `*`, and where a
parenthesis is left open at the end of the text. -/
def parseUnary : Nat → List Token → Outcome (JSNumber × List Token)
  | 0, _ => .unsupported
  | fuel + 1, .plus :: rest => parseUnary fuel rest
  | fuel + 1, .minus :: rest =>
    match parseUnary fuel rest with
    | .ok (v, rest') => .ok (JSNumber.neg v, rest')
    | .throws => .throws
    | .unsupported => .unsupported
  | _ + 1, .num v :: rest => .ok (v, rest)
  | fuel + 1, .lparen :: rest =>
    match parseExpr fuel rest with
    | .ok (v, .rparen :: rest') => .ok (v, rest')
    | .ok (_, []) => .throws
    | .ok (_, _ :: _) => .unsupported
    | .throws => .throws
    | .unsupported => .unsupported
  | _ + 1, [] => .throws
  | _ + 1, .rparen :: _ => .throws
  | _ + 1, .times :: _ => .throws
  | _ + 1, .divide :: _ => .unsupported

end

/-- The call `computeFunc(sin, cos, tan, log, ln, sqrt)` on the function made from
`'return ' + evalString`, with the returned value converted to a Number as
`res * 1000000000` does: the Number, `throws` for an exception (a SyntaxError
of `new Function` included).  The empty body `return ` yields `undefined`,
which converts to `NaN`. -/
def runFunction (evalString : Text) : Outcome JSNumber :=
  match lex (evalString.length + 1) evalString with
  | none => .unsupported
  | some [] => .ok .nan
  | some toks =>
    match parseExpr (4 * toks.length + 4) toks with
    | .ok (v, []) => .ok v
    | .ok (_, .rparen :: _) => .throws
    | .ok (_, _ :: _) => .unsupported
    | .throws => .throws
    | .unsupported => .unsupported

/-! ## compute -/

/-- The character class `[πe√\(]` of the two lookaheads. -/
def startsOperand (t : Text) : Bool :=
  t.head?.any (fun c => c == 'π' || c == 'e' || c == '√' || c == '(')

/-- The first pass, `evalString.replace(/(\d)(?=[πe√\(])/g, '$1*')`. -/
def implicitMulDigit (evalString : Text) : Text :=
  replaceAll (fun t => t.head?.any isDigit && startsOperand t.tail) (fun d => [d, '*']) evalString

/-- The second pass, `evalString.replace(/(\))(?=[πe√\(])/g, '$1*')`. -/
def implicitMulParen (evalString : Text) : Text :=
  replaceAll (fun t => t.head? == some ')' && startsOperand t.tail) (fun d => [d, '*']) evalString

/-- The text `evalString` that `compute` builds from the expression, pass by pass. -/
def normalize (expression : Text) : Text :=
  let evalString := implicitMulDigit expression
  let evalString := implicitMulParen evalString
  let evalString := replaceChar '×' "*".toList evalString
  let evalString := replaceChar '÷' "/".toList evalString
  let evalString := replaceChar '−' "-".toList evalString
  let evalString := replaceChar 'π' "Math.PI".toList evalString
  let evalString := replaceChar 'e' "Math.E".toList evalString
  let evalString := replaceChar '√' "sqrt".toList evalString
  let evalString := replaceChar '^' "**".toList evalString
  let evalString := replaceChar '%' "/100".toList evalString
  evalString

/-- The Number `1000000000`. -/
def billion : JSNumber := JSNumber.ofNat 1000000000

/-- The statement `res = Math.round(res * 1000000000) / 1000000000`. -/
def round9 (res : JSNumber) : JSNumber :=
  JSNumber.div (JSNumber.round (JSNumber.mul res billion)) billion

/-- The body of `compute()` once the generated function has returned the Number
`some res` or thrown (`none`): on a return the rounded result text is stored,
logged and made the expression; on an exception the `catch` block stores the
error marker. -/
def finish (c : Calculator) : Option JSNumber → Calculator
  | some res =>
    let originalExpression := c.expression
    let result := JSNumber.toString (round9 res)
    let c := { c with result := result }
    let c := addToHistory c originalExpression result
    { c with expression := result }
  | none => { c with expression := "Error".toList }

/-- Method `compute()`, for a host whose generated function behaves as `run`
says on the normalized text (`none`: an exception). -/
def computeWith (run : Text → Option JSNumber) (c : Calculator) : Calculator :=
  finish c (run (normalize c.expression))

/-- Method `compute()`: the state it leaves, `none` when the expression leaves
the part of the host language that `runFunction` covers. -/
def compute (c : Calculator) : Option Calculator :=
  match runFunction (normalize c.expression) with
  | .ok res => some (finish c (some res))
  | .throws => some (finish c none)
  | .unsupported => none

/-! ## The functions handed to the generated function -/

/-- The host functions `Math.sin`, `Math.cos`, `Math.tan`, `Math.log10`,
`Math.log` and `Math.sqrt` that the closures of `compute` call.  The language
standard leaves their results implementation-approximated, so they are
parameters of the model. -/
structure MathHost where
  sin : JSNumber → JSNumber
  cos : JSNumber → JSNumber
  tan : JSNumber → JSNumber
  log10 : JSNumber → JSNumber
  log : JSNumber → JSNumber
  sqrt : JSNumber → JSNumber

/-- The closure `toRad = (deg) => deg * Math.PI / 180`. -/
def toRad (deg : JSNumber) : JSNumber :=
  JSNumber.div (JSNumber.mul deg JSNumber.mathPI) (JSNumber.ofNat 180)

/-- The closure `sin = (val) => Math.sin(toRad(val))`. -/
def sin (host : MathHost) (val : JSNumber) : JSNumber := host.sin (toRad val)

/-- The closure `cos = (val) => Math.cos(toRad(val))`. -/
def cos (host : MathHost) (val : JSNumber) : JSNumber := host.cos (toRad val)

/-- The closure `tan = (val) => Math.tan(toRad(val))`. -/
def tan (host : MathHost) (val : JSNumber) : JSNumber := host.tan (toRad val)

/-- The closure `log = (val) => Math.log10(val)`. -/
def log (host : MathHost) (val : JSNumber) : JSNumber := host.log10 val

/-- The closure `ln = (val) => Math.log(val)`. -/
def ln (host : MathHost) (val : JSNumber) : JSNumber := host.log val

/-- The closure `sqrt = (val) => Math.sqrt(val)`. -/
def sqrt (host : MathHost) (val : JSNumber) : JSNumber := host.sqrt val

/-! ## Reachable states -/

/-- The states a fresh calculator reaches by calls of its methods, on a host
whose generated functions behave as `run` says. -/
inductive Reachable (run : Text → Option JSNumber) : Calculator → Prop where
  | new : Reachable run Calculator.new
  | append (c : Calculator) (val : Text) : Reachable run c → Reachable run (c.append val)
  | delete (c : Calculator) : Reachable run c → Reachable run c.delete
  | clear (c : Calculator) : Reachable run c → Reachable run c.clear
  | bracket (c : Calculator) : Reachable run c → Reachable run c.bracket
  | compute (c : Calculator) : Reachable run c → Reachable run (computeWith run c)
  | addToHistory (c : Calculator) (exp res : Text) :
      Reachable run c → Reachable run (c.addToHistory exp res)
  | clearHistory (c : Calculator) : Reachable run c → Reachable run c.clearHistory
  | setLocale (c : Calculator) (lang : Text) : Reachable run c → Reachable run (c.setLocale lang)

/-- The host of the evaluator `runFunction`, with an exception wherever the
evaluator gives no value. -/
def hostRun (evalString : Text) : Option JSNumber :=
  match runFunction evalString with
  | .ok v => some v
  | _ => none

/-! ## Inverse of the digit substitution -/

/-- The array `englishDigits`. -/
def englishDigits : List Char := ['0', '1', '2', '3', '4', '5', '6', '7', '8', '9']

/-- The inverse substitution the specification speaks of: a Devanagari digit
glyph is mapped back to the Western digit of the same index, every other
character is left alone. -/
def toWesternChar (c : Char) : Char :=
  if c ∈ hindiDigits then englishDigits.getD (hindiDigits.indexOf c) c else c

/-- The inverse substitution applied to a text. -/
def toWestern (str : Text) : Text := str.map toWesternChar

/-! ## Specification-side definitions -/

/-- The first normalization rule in the words of the specification: a
multiplication operator is inserted between any digit and an immediately
following `π`, `e`, `√` or `(`.  Position by position, the character at
position `i` is kept, and followed by `*` when it is a digit and the character
at position `i + 1` is one of the four. -/
def insertMulAfterDigits (s : Text) : Text :=
  ((List.range s.length).map (fun i =>
    if isDigit (s.getD i ' ') && decide (s.getD (i + 1) ' ' ∈ ['π', 'e', '√', '('])
    then [s.getD i ' ', '*'] else [s.getD i ' '])).flatten

end Calculator

/-! # Theorems -/

namespace Calculator

/-! ## delete -/

theorem endsWith_iff (s f : Text) : endsWith s f = true ↔ f <:+ s := by
  unfold endsWith
  exact List.isSuffixOf_iff_suffix

theorem sliceDropLast_append (p f : Text) (hf : f ≠ []) :
    sliceDropLast (p ++ f) f.length = p := by
  unfold sliceDropLast
  have hlen : f.length ≠ 0 := by
    intro h
    exact hf (List.length_eq_zero.mp h)
  rw [if_neg hlen]
  have : (p ++ f).length - f.length = p.length := by
    rw [List.length_append]
    omega
  rw [this, List.take_left]

theorem sliceDropLast_one (s : Text) : sliceDropLast s 1 = s.dropLast := by
  unfold sliceDropLast
  rw [if_neg (by decide), List.dropLast_eq_take]

theorem deleteLoop_none (fs : List Text) (s : Text) (h : ∀ f ∈ fs, ¬ f <:+ s) :
    deleteLoop fs s = none := by
  induction fs with
  | nil => rfl
  | cons f fs ih =>
    unfold deleteLoop
    have hf : endsWith s f = false := by
      cases hb : endsWith s f with
      | false => rfl
      | true => exact absurd ((endsWith_iff s f).mp hb) (h f (List.mem_cons_self f fs))
    rw [hf]
    exact ih (fun g hg => h g (List.mem_cons_of_mem f hg))

theorem deleteLoop_unique (fs : List Text) (s f : Text) (hf : f ∈ fs) (hs : f <:+ s)
    (huniq : ∀ g ∈ fs, g <:+ s → g = f) :
    deleteLoop fs s = some (sliceDropLast s f.length) := by
  induction fs with
  | nil => cases hf
  | cons g fs ih =>
    unfold deleteLoop
    cases hb : endsWith s g with
    | true =>
      have hg : g = f := huniq g (List.mem_cons_self g fs) ((endsWith_iff s g).mp hb)
      simp [hg]
    | false =>
      have hne : f ≠ g := by
        intro h
        rw [← h, (endsWith_iff s f).mpr hs] at hb
        cases hb
      have hf' : f ∈ fs := by
        rcases List.mem_cons.mp hf with h | h
        · exact absurd h hne
        · exact h
      simpa using ih hf' (fun k hk => huniq k (List.mem_cons_of_mem g hk))

theorem funcs_no_suffix : ∀ f ∈ funcs, ∀ g ∈ funcs, f <:+ g → f = g := by
  decide

theorem funcs_unique (s f g : Text) (hf : f ∈ funcs) (hg : g ∈ funcs)
    (hfs : f <:+ s) (hgs : g <:+ s) : f = g := by
  rcases List.suffix_or_suffix_of_suffix hfs hgs with h | h
  · exact funcs_no_suffix f hf g hg h
  · exact (funcs_no_suffix g hg f hf h).symm

theorem funcs_ne_nil : ∀ f ∈ funcs, f ≠ [] := by
  decide

theorem deleteLast_cases (s : Text) :
    (∀ f ∈ funcs, ∀ p : Text, s = p ++ f → deleteLast s = p) ∧
    (s ≠ [] → (∀ f ∈ funcs, ¬ f <:+ s) → deleteLast s = s.dropLast ∧
      (deleteLast s).length + 1 = s.length) := by
  refine ⟨?_, ?_⟩
  · intro f hf p hs
    have hsuf : f <:+ s := ⟨p, hs.symm⟩
    have h := deleteLoop_unique funcs s f hf hsuf
      (fun g hg hgs => funcs_unique s g f hg hf hgs hsuf)
    unfold deleteLast deleteWith
    rw [h, hs]
    exact sliceDropLast_append p f (funcs_ne_nil f hf)
  · intro hne hnone
    have h := deleteLoop_none funcs s hnone
    have hd : deleteLast s = s.dropLast := by
      unfold deleteLast deleteWith
      rw [h]
      exact sliceDropLast_one s
    refine ⟨hd, ?_⟩
    rw [hd, List.length_dropLast]
    have : 0 < s.length := List.length_pos.mpr hne
    omega

/-- C1: `deleteLast` removes the whole token from an expression that ends with
one of the six function tokens `sin(`, `cos(`, `tan(`, `log(`, `sqrt(`, `ln(`,
removes exactly the last character from any other non-empty expression, and
leaves the empty expression empty; with one instance for each token and for
the two other cases. -/
theorem deleteLast_spec :
    (∀ p : Text,
      deleteLast (p ++ "sin(".toList) = p ∧ deleteLast (p ++ "cos(".toList) = p ∧
      deleteLast (p ++ "tan(".toList) = p ∧ deleteLast (p ++ "log(".toList) = p ∧
      deleteLast (p ++ "sqrt(".toList) = p ∧ deleteLast (p ++ "ln(".toList) = p) ∧
    (∀ s : Text, s ≠ [] →
      ¬ "sin(".toList <:+ s → ¬ "cos(".toList <:+ s → ¬ "tan(".toList <:+ s →
      ¬ "log(".toList <:+ s → ¬ "sqrt(".toList <:+ s → ¬ "ln(".toList <:+ s →
      deleteLast s = s.dropLast ∧ (deleteLast s).length + 1 = s.length) ∧
    deleteLast [] = [] ∧
    deleteLast "2+sin(".toList = "2+".toList ∧
    deleteLast "cos(".toList = [] ∧
    deleteLast "9×tan(".toList = "9×".toList ∧
    deleteLast "log(log(".toList = "log(".toList ∧
    deleteLast "√sqrt(".toList = "√".toList ∧
    deleteLast "2ln(".toList = "2".toList ∧
    deleteLast "12+3".toList = "12+".toList ∧
    deleteLast "sin".toList = "si".toList ∧
    deleteLast "(".toList = [] ∧
    deleteLast "asin(".toList = "a".toList := by
  refine ⟨?_, ?_, by decide, by decide, by decide, by decide, by decide, by decide, by decide,
    by decide, by decide, by decide, by decide⟩
  · intro p
    have h := fun (f : Text) (hf : f ∈ funcs) => (deleteLast_cases (p ++ f)).1 f hf p rfl
    exact ⟨h _ (by decide), h _ (by decide), h _ (by decide), h _ (by decide),
      h _ (by decide), h _ (by decide)⟩
  · intro s hne h1 h2 h3 h4 h5 h6
    apply (deleteLast_cases s).2 hne
    intro f hf
    simp only [funcs, List.mem_cons, List.mem_singleton, List.not_mem_nil, or_false] at hf
    rcases hf with rfl | rfl | rfl | rfl | rfl | rfl
    · exact h1
    · exact h2
    · exact h3
    · exact h4
    · exact h5
    · exact h6

/-- C10: the six function tokens do not collide: at most one of them is a suffix
of a given expression, and `delete` leaves the same expression for every
order in which the tokens are checked. -/
theorem delete_order_irrelevant :
    (∀ s f g : Text, f ∈ funcs → g ∈ funcs → f <:+ s → g <:+ s → f = g) ∧
    (∀ fs : List Text, fs.Perm funcs → ∀ s : Text, deleteWith fs s = deleteLast s) := by
  refine ⟨fun s f g hf hg hfs hgs => funcs_unique s f g hf hg hfs hgs, ?_⟩
  intro fs hperm s
  unfold deleteLast deleteWith
  by_cases hex : ∃ f ∈ funcs, f <:+ s
  · obtain ⟨f, hf, hfs⟩ := hex
    rw [deleteLoop_unique funcs s f hf hfs (fun g hg hgs => funcs_unique s g f hg hf hgs hfs),
      deleteLoop_unique fs s f (hperm.mem_iff.mpr hf) hfs
        (fun g hg hgs => funcs_unique s g f (hperm.mem_iff.mp hg) hf hgs hfs)]
  · have hnone : ∀ f ∈ funcs, ¬ f <:+ s := fun f hf hfs => hex ⟨f, hf, hfs⟩
    rw [deleteLoop_none funcs s hnone,
      deleteLoop_none fs s (fun f hf => hnone f (hperm.mem_iff.mp hf))]

/-! ## bracket -/

/-- C2 (as stated, refuted): from the expression `))` the bracket key produces
`))(`, which has two `)` and one `(`. -/
theorem insertBracket_excess_close :
    insertBracket "))".toList = "))(".toList ∧
    ¬ matchCount ')' (insertBracket "))".toList) ≤ matchCount '(' (insertBracket "))".toList) := by
  decide

/-- C2 (amended): for an expression that does not contain more `)` than `(`, the
expression produced by `insertBracket` does not contain more `)` than `(`. -/
theorem insertBracket_balanced (s : Text)
    (h : matchCount ')' s ≤ matchCount '(' s) :
    matchCount ')' (insertBracket s) ≤ matchCount '(' (insertBracket s) := by
  unfold insertBracket
  simp only [matchCount] at *
  split
  · rename_i hc
    rw [List.count_append, List.count_append]
    have h1 : List.count ')' [')'] = 1 := by decide
    have h2 : List.count '(' [')'] = 0 := by decide
    omega
  · rw [List.count_append, List.count_append]
    have h1 : List.count ')' ['('] = 0 := by decide
    have h2 : List.count '(' ['('] = 1 := by decide
    omega

theorem insertBracket_balanced_witness :
    matchCount ')' "(2+3".toList ≤ matchCount '(' "(2+3".toList ∧
    insertBracket "(2+3".toList = "(2+3)".toList ∧
    matchCount ')' (insertBracket "(2+3".toList) ≤ matchCount '(' (insertBracket "(2+3".toList) :=
  ⟨by decide, by decide, insertBracket_balanced "(2+3".toList (by decide)⟩

/-! ## history -/

theorem pushHistory_length (h : List HistoryEntry) (exp res : Text) (hl : h.length ≤ 20) :
    (pushHistory h exp res).length ≤ 20 := by
  unfold pushHistory
  split
  · exact hl
  · simp only
    split
    · rw [List.length_dropLast, List.length_cons]
      omega
    · rename_i hgt
      omega

/-- C6: on a log of at most 20 entries `addToHistory(exp, res)` changes nothing
when `exp` is empty, `res` is empty or both are equal; otherwise the new log is
the entry `(exp, res)` followed by the old entries in their order, without the
last (oldest) one exactly when the log already had 20 entries. -/
theorem addToHistory_spec (c : Calculator) (exp res : Text) (hl : c.history.length ≤ 20) :
    ((exp = [] ∨ res = [] ∨ exp = res) → (addToHistory c exp res).history = c.history) ∧
    (¬ (exp = [] ∨ res = [] ∨ exp = res) →
      (addToHistory c exp res).history =
        { expression := exp, result := res } ::
          (if c.history.length = 20 then c.history.dropLast else c.history)) ∧
    (addToHistory c exp res).expression = c.expression ∧
    (addToHistory c exp res).result = c.result ∧
    (addToHistory c exp res).locale = c.locale := by
  refine ⟨?_, ?_, rfl, rfl, rfl⟩
  · intro h
    simp only [addToHistory, pushHistory]
    rw [if_pos h]
  · intro h
    simp only [addToHistory, pushHistory]
    rw [if_neg h]
    simp only [List.length_cons]
    by_cases h20 : c.history.length = 20
    · rw [if_pos (by omega), if_pos h20]
      apply List.dropLast_cons_of_ne_nil
      intro hnil
      rw [hnil] at h20
      cases h20
    · rw [if_neg (by omega), if_neg h20]

theorem addToHistory_spec_witness :
    (addToHistory { Calculator.new with history := List.replicate 20 ⟨"1+1".toList, "2".toList⟩ }
        "2+3".toList "5".toList).history =
      ⟨"2+3".toList, "5".toList⟩ :: List.replicate 19 ⟨"1+1".toList, "2".toList⟩ := by
  have h := (addToHistory_spec
    { Calculator.new with history := List.replicate 20 ⟨"1+1".toList, "2".toList⟩ }
    "2+3".toList "5".toList (by decide)).2.1 (by decide)
  rw [h]
  decide

/-! ## The history log over all runs -/

theorem finish_history_length (c : Calculator) (out : Option JSNumber)
    (hl : c.history.length ≤ 20) : (finish c out).history.length ≤ 20 := by
  cases out with
  | none => exact hl
  | some res => exact pushHistory_length c.history _ _ hl

/-- C5: in every state reachable from a fresh calculator by calls of append,
delete, clear, bracket, compute, addToHistory, clearHistory and setLocale,
whatever the generated functions return or throw, the history log has at most
20 entries. -/
theorem history_length_le (run : Text → Option JSNumber) (c : Calculator)
    (h : Reachable run c) : c.history.length ≤ 20 := by
  induction h with
  | new => decide
  | append c val _ ih => exact ih
  | delete c _ ih => exact ih
  | clear c _ ih => exact ih
  | bracket c _ ih => exact ih
  | compute c _ ih => exact finish_history_length c _ ih
  | addToHistory c exp res _ ih => exact pushHistory_length c.history exp res ih
  | clearHistory c _ ih => exact Nat.zero_le 20
  | setLocale c lang _ ih => exact ih

theorem history_length_le_witness :
    (computeWith hostRun (Calculator.new.append "2(3+4)".toList)).history.length ≤ 20 :=
  history_length_le hostRun _
    (Reachable.compute _ (Reachable.append _ _ Reachable.new))

/-! ## toHindi -/

theorem replaceAll_head (p : Char → Bool) (f : Char → Char) (s : Text) :
    replaceAll (fun t => t.head?.any p) (fun w => [f w]) s =
      s.map (fun c => if p c then f c else c) := by
  induction s with
  | nil => rfl
  | cons c rest ih =>
    unfold replaceAll
    rw [ih]
    cases hp : p c <;> simp [hp]

theorem toHindi_eq_map (s : Text) :
    toHindi s = s.map (fun c => if isDigit c then hindiDigit c else c) := by
  unfold toHindi
  split
  · rename_i h
    rw [h]
    rfl
  · exact replaceAll_head isDigit hindiDigit s

theorem isDigit_cases (c : Char) (h : isDigit c = true) :
    ∃ k : Fin 10, c = Char.ofNat (48 + k.val) := by
  unfold isDigit at h
  simp only [Bool.and_eq_true, decide_eq_true_eq] at h
  obtain ⟨h0, h9⟩ := h
  have h0' : 48 ≤ c.toNat := h0
  have h9' : c.toNat ≤ 57 := h9
  refine ⟨⟨c.toNat - 48, by omega⟩, ?_⟩
  have : 48 + (c.toNat - 48) = c.toNat := by omega
  simp only [this, Char.ofNat_toNat]

theorem toWesternChar_hindiDigit (c : Char) (h : isDigit c = true) :
    toWesternChar (hindiDigit c) = c := by
  obtain ⟨k, rfl⟩ := isDigit_cases c h
  revert k
  decide

/-- C8: for a text without Devanagari digit glyphs, mapping the glyphs of
`toHindi(s)` back to Western digits yields `s`; `toHindi` preserves the length
and leaves every character that is not a digit unchanged at its position. -/
theorem toHindi_roundtrip (s : Text) (h : ∀ c ∈ s, c ∉ hindiDigits) :
    toWestern (toHindi s) = s ∧
    (toHindi s).length = s.length ∧
    (∀ i : Nat, ∀ c : Char, s[i]? = some c → isDigit c = false → (toHindi s)[i]? = some c) := by
  rw [toHindi_eq_map]
  refine ⟨?_, by simp, ?_⟩
  · unfold toWestern
    rw [List.map_map]
    conv_rhs => rw [← List.map_id s]
    apply List.map_congr_left
    intro c hc
    simp only [Function.comp_apply, id_eq]
    cases hd : isDigit c with
    | true => simpa using toWesternChar_hindiDigit c hd
    | false =>
      simp only [Bool.false_eq_true, if_false]
      unfold toWesternChar
      rw [if_neg (h c hc)]
  · intro i c hi hd
    rw [List.getElem?_map, hi]
    simp [hd]

theorem toHindi_roundtrip_witness :
    toHindi "12+3.5".toList = "१२+३.५".toList ∧ toWestern (toHindi "12+3.5".toList) = "12+3.5".toList :=
  ⟨by decide, (toHindi_roundtrip "12+3.5".toList (by decide)).1⟩

/-! ## Normalization -/

theorem mem_operandStart (d : Char) :
    decide (d ∈ ['π', 'e', '√', '(']) = (d == 'π' || d == 'e' || d == '√' || d == '(') := by
  rw [Bool.eq_iff_iff]
  simp [or_assoc]

theorem insertMul_step (c : Char) (rest : Text) :
    insertMulAfterDigits (c :: rest) =
      (if isDigit c && startsOperand rest then [c, '*'] else [c]) ++
        insertMulAfterDigits rest := by
  unfold insertMulAfterDigits
  rw [List.length_cons, List.range_succ_eq_map, List.map_cons, List.flatten_cons, List.map_map]
  congr 1
  cases rest with
  | nil => rfl
  | cons d rest' =>
    simp only [List.getD_cons_zero, List.getD_cons_succ, startsOperand, List.head?_cons,
      Option.any_some]
    rw [mem_operandStart]

theorem implicitMulDigit_eq (s : Text) : implicitMulDigit s = insertMulAfterDigits s := by
  induction s with
  | nil => rfl
  | cons c rest ih =>
    rw [insertMul_step, ← ih]
    unfold implicitMulDigit
    rw [replaceAll]
    simp only [List.head?_cons, Option.any_some, List.tail_cons]
    split <;> rfl

/-- C7: the first normalization pass of `compute` inserts `*` after each digit
that is immediately followed by `π`, `e`, `√` or `(` and changes nothing else;
`2(3+4)` normalizes to `2*(3+4)` and `compute` turns it into the result text `14`. -/
theorem implicitMulDigit_spec :
    (∀ s : Text, implicitMulDigit s = insertMulAfterDigits s) ∧
    implicitMulDigit "2(3+4)".toList = "2*(3+4)".toList ∧
    normalize "2(3+4)".toList = "2*(3+4)".toList ∧
    compute { Calculator.new with expression := "2(3+4)".toList } =
      some { expression := "14".toList, result := "14".toList, locale := "en".toList,
             history := [⟨"2(3+4)".toList, "14".toList⟩] } :=
  ⟨implicitMulDigit_eq, by decide!, by decide!, by decide!⟩

/-! ## compute on non-finite values -/

theorem round9_nonfinite (v : JSNumber) (hv : v = .inf false ∨ v = .inf true ∨ v = .nan) :
    round9 v = v := by
  rcases hv with h | h | h <;> subst h <;> decide!

/-- C3 (as stated, refuted): the value of `5/0` is the non-finite Number
`Infinity`; `compute` stores its text `Infinity` as result and expression and
logs it in the history, and does not store the error marker. -/
theorem compute_division_by_zero :
    runFunction (normalize "5/0".toList) = .ok (.inf false) ∧
    compute { Calculator.new with expression := "5/0".toList } =
      some { expression := "Infinity".toList, result := "Infinity".toList,
             locale := "en".toList,
             history := [⟨"5/0".toList, "Infinity".toList⟩] } ∧
    "Infinity".toList ≠ "Error".toList := by
  decide!

/-- C3 (amended): when the evaluation of the expression returns a non-finite
Number (`Infinity`, `-Infinity` or `NaN`), `compute` ends with the expression
and the result equal to the text of that Number, which is not the error marker;
when the evaluation throws, `compute` ends with the expression `Error` and
leaves result and history as they were. -/
theorem compute_nonfinite (c : Calculator) :
    (∀ v : JSNumber, (v = .inf false ∨ v = .inf true ∨ v = .nan) →
      runFunction (normalize c.expression) = .ok v →
      ∃ c' : Calculator, compute c = some c' ∧
        c'.expression = JSNumber.toString v ∧ c'.result = JSNumber.toString v ∧
        c'.expression ∈ ["Infinity".toList, "-Infinity".toList, "NaN".toList] ∧
        c'.expression ≠ "Error".toList) ∧
    (runFunction (normalize c.expression) = .throws →
      compute c = some { c with expression := "Error".toList }) := by
  refine ⟨?_, ?_⟩
  · intro v hv hrun
    refine ⟨finish c (some v), ?_, ?_, ?_, ?_, ?_⟩
    · unfold compute
      rw [hrun]
    · simp only [finish, addToHistory, round9_nonfinite v hv]
    · simp only [finish, addToHistory, round9_nonfinite v hv]
    · simp only [finish, addToHistory, round9_nonfinite v hv]
      rcases hv with h | h | h <;> subst h <;> decide
    · simp only [finish, addToHistory, round9_nonfinite v hv]
      rcases hv with h | h | h <;> subst h <;> decide
  · intro hrun
    unfold compute
    rw [hrun]
    rfl

theorem compute_nonfinite_witness :
    ∃ c' : Calculator, compute { Calculator.new with expression := "0÷0".toList } = some c' ∧
      c'.expression = JSNumber.toString .nan ∧ c'.result = JSNumber.toString .nan ∧
      c'.expression ∈ ["Infinity".toList, "-Infinity".toList, "NaN".toList] ∧
      c'.expression ≠ "Error".toList :=
  (compute_nonfinite { Calculator.new with expression := "0÷0".toList }).1 .nan
    (Or.inr (Or.inr rfl)) (by decide!)

/-! ## Trigonometric functions in degrees -/

/-- C9: the functions `sin`, `cos` and `tan` handed to the generated function
take their argument in degrees: for every Number `x` they return the host's
sine, cosine and tangent of `x * Math.PI / 180`, which for 30 is the Number
`0.5235987755982988`; and for every host whose `Math.sin` returns there one of
the three Numbers around one half (`0.49999999999999994`, `0.5`,
`0.5000000000000001`), `compute` on `sin(30)`, whose generated function returns
`sin(30)`, yields the result text `0.5`. -/
theorem sin_degrees (host : MathHost) (run : Text → Option JSNumber) (c : Calculator)
    (hc : c.expression = "sin(30)".toList)
    (hsin : host.sin (toRad (JSNumber.ofNat 30)) =
        JSNumber.roundQuot false 49999999999999994 (10 ^ 17) ∨
      host.sin (toRad (JSNumber.ofNat 30)) = JSNumber.roundQuot false 5 10 ∨
      host.sin (toRad (JSNumber.ofNat 30)) =
        JSNumber.roundQuot false 5000000000000001 (10 ^ 16))
    (hrun : run (normalize c.expression) = some (sin host (JSNumber.ofNat 30))) :
    (∀ x : JSNumber,
      sin host x =
        host.sin (JSNumber.div (JSNumber.mul x JSNumber.mathPI) (JSNumber.ofNat 180)) ∧
      cos host x =
        host.cos (JSNumber.div (JSNumber.mul x JSNumber.mathPI) (JSNumber.ofNat 180)) ∧
      tan host x =
        host.tan (JSNumber.div (JSNumber.mul x JSNumber.mathPI) (JSNumber.ofNat 180))) ∧
    toRad (JSNumber.ofNat 30) = JSNumber.roundQuot false 5235987755982988 (10 ^ 16) ∧
    normalize "sin(30)".toList = "sin(30)".toList ∧
    computeWith run c =
      { c with expression := "0.5".toList, result := "0.5".toList,
               history := pushHistory c.history "sin(30)".toList "0.5".toList } := by
  refine ⟨fun x => ⟨rfl, rfl, rfl⟩, by decide!, by decide!, ?_⟩
  have htext : JSNumber.toString (round9 (sin host (JSNumber.ofNat 30))) = "0.5".toList := by
    unfold sin
    rcases hsin with h | h | h <;> rw [h] <;> decide!
  unfold computeWith
  rw [hrun]
  simp only [finish, addToHistory, htext, hc]

theorem sin_degrees_witness :
    computeWith
        (fun t => if t = "sin(30)".toList then
          some (JSNumber.roundQuot false 49999999999999994 (10 ^ 17)) else none)
        { Calculator.new with expression := "sin(30)".toList } =
      { expression := "0.5".toList, result := "0.5".toList, locale := "en".toList,
        history := [⟨"sin(30)".toList, "0.5".toList⟩] } :=
  (sin_degrees
    { sin := fun _ => JSNumber.roundQuot false 49999999999999994 (10 ^ 17),
      cos := fun _ => .nan, tan := fun _ => .nan, log10 := fun _ => .nan,
      log := fun _ => .nan, sqrt := fun _ => .nan }
    (fun t => if t = "sin(30)".toList then
      some (JSNumber.roundQuot false 49999999999999994 (10 ^ 17)) else none)
    { Calculator.new with expression := "sin(30)".toList } (by decide) (Or.inl (by decide!))
    (by decide!)).2.2.2

/-! ## Exact evaluation of decimal integers -/

namespace JSNumber

theorem floorLog2Aux_spec (k : Nat) : ∀ n : Nat, 0 < n → n < 2 ^ 2 ^ k →
    2 ^ floorLog2Aux k n ≤ n ∧ n < 2 ^ (floorLog2Aux k n + 1) := by
  induction k with
  | zero =>
    intro n h0 hlt
    have : n = 1 := by
      simp at hlt
      omega
    subst this
    simp [floorLog2Aux]
  | succ k ih =>
    intro n h0 hlt
    unfold floorLog2Aux
    have hpos : 0 < 2 ^ 2 ^ k := Nat.pow_pos (by decide)
    have hsq : 2 ^ 2 ^ (k + 1) = 2 ^ 2 ^ k * 2 ^ 2 ^ k := by
      rw [← Nat.pow_add, Nat.pow_succ]
      congr 1
      omega
    split
    · rename_i hge
      have h1 : 0 < n / 2 ^ 2 ^ k := Nat.div_pos hge hpos
      have h2 : n / 2 ^ 2 ^ k < 2 ^ 2 ^ k := by
        rw [Nat.div_lt_iff_lt_mul hpos]
        rw [hsq] at hlt
        exact hlt
      obtain ⟨ha, hb⟩ := ih _ h1 h2
      constructor
      · rw [Nat.pow_add]
        calc 2 ^ 2 ^ k * 2 ^ floorLog2Aux k (n / 2 ^ 2 ^ k)
            ≤ 2 ^ 2 ^ k * (n / 2 ^ 2 ^ k) := Nat.mul_le_mul_left _ ha
          _ ≤ n := Nat.mul_div_le n _
      · have h3 : n < 2 ^ 2 ^ k * (n / 2 ^ 2 ^ k + 1) := Nat.lt_mul_div_succ n hpos
        have h4 : 2 ^ 2 ^ k * (n / 2 ^ 2 ^ k + 1) ≤ 2 ^ 2 ^ k * 2 ^ (floorLog2Aux k (n / 2 ^ 2 ^ k) + 1) :=
          Nat.mul_le_mul_left _ hb
        have h5 : 2 ^ (2 ^ k + floorLog2Aux k (n / 2 ^ 2 ^ k) + 1) =
            2 ^ 2 ^ k * 2 ^ (floorLog2Aux k (n / 2 ^ 2 ^ k) + 1) := by
          rw [← Nat.pow_add]
          congr 1
        omega
    · rename_i hlt'
      exact ih n h0 (by omega)

theorem floorLog2_spec (n : Nat) (h0 : 0 < n) (hlt : n < 2 ^ 2 ^ 12) :
    2 ^ floorLog2 n ≤ n ∧ n < 2 ^ (floorLog2 n + 1) :=
  floorLog2Aux_spec 12 n h0 hlt

theorem log2_unique (n a b : Nat) (ha : 2 ^ a ≤ n) (ha' : n < 2 ^ (a + 1))
    (hb : 2 ^ b ≤ n) (hb' : n < 2 ^ (b + 1)) : a = b := by
  have h1 : a < b + 1 := (Nat.pow_lt_pow_iff_right (by decide : 1 < 2)).mp (lt_of_le_of_lt ha hb')
  have h2 : b < a + 1 := (Nat.pow_lt_pow_iff_right (by decide : 1 < 2)).mp (lt_of_le_of_lt hb ha')
  omega

theorem floorLog2_eq (n a : Nat) (hlt : n < 2 ^ 2 ^ 12) (ha : 2 ^ a ≤ n) (ha' : n < 2 ^ (a + 1)) :
    floorLog2 n = a := by
  have h0 : 0 < n := lt_of_lt_of_le (Nat.pow_pos (by decide)) ha
  obtain ⟨h1, h2⟩ := floorLog2_spec n h0 hlt
  exact log2_unique n _ _ h1 h2 ha ha'

theorem floorLog2_two_pow (i : Nat) (hi : i < 2 ^ 12) : floorLog2 (2 ^ i) = i :=
  floorLog2_eq (2 ^ i) i (Nat.pow_lt_pow_right (by decide) hi) (le_refl _)
    (Nat.pow_lt_pow_right (by decide) (by omega))

theorem gcd_two_pow_mul_odd (o v N : Nat) (ho : Odd o) (hv : v ≤ N) :
    Nat.gcd (2 ^ v * o) (2 ^ N) = 2 ^ v := by
  have hcop : Nat.Coprime o (2 ^ N) := Nat.Coprime.pow_right N (Nat.coprime_two_right.mpr ho)
  rw [Nat.Coprime.gcd_mul_right_cancel _ hcop]
  exact Nat.gcd_eq_left (Nat.pow_dvd_pow 2 hv)

theorem canon_two_pow_mul (s : Bool) (o v : Nat) (e : Int) (ho : Odd o) (hv : v ≤ 1100) :
    canon s (2 ^ v * o) e = .fin s o (e + (v : Int)) := by
  have hpos : 0 < 2 ^ v := Nat.pow_pos (by decide)
  have h12 : v < 2 ^ 12 := lt_of_le_of_lt hv (by decide)
  unfold canon
  simp only [gcd_two_pow_mul_odd o v 1100 ho hv]
  rw [Nat.mul_div_cancel_left o hpos, floorLog2_two_pow v h12]

theorem binaryExponent_exact (x k : Nat) (hx : 0 < x) (hk : 0 < k) (hxk : x * k < 2 ^ 2 ^ 12) :
    binaryExponent (x * k) k = (floorLog2 x : Int) := by
  have hklt : k < 2 ^ 2 ^ 12 := lt_of_le_of_lt (Nat.le_mul_of_pos_left k hx) hxk
  have hxlt : x < 2 ^ 2 ^ 12 := lt_of_le_of_lt (Nat.le_mul_of_pos_right x hk) hxk
  obtain ⟨ha, ha'⟩ := floorLog2_spec (x * k) (Nat.mul_pos hx hk) hxk
  obtain ⟨hb, hb'⟩ := floorLog2_spec k hk hklt
  unfold binaryExponent
  generalize floorLog2 (x * k) = a at ha ha' ⊢
  generalize floorLog2 k = b at hb hb' ⊢
  -- `b ≤ a`
  have hba : b ≤ a := by
    have h1 : 2 ^ b < 2 ^ (a + 1) :=
      lt_of_le_of_lt hb (lt_of_le_of_lt (Nat.le_mul_of_pos_left k hx) ha')
    have := (Nat.pow_lt_pow_iff_right (by decide : 1 < 2)).mp h1
    omega
  -- `x < 2^(a - b + 1)`
  have hub : x < 2 ^ (a - b + 1) := by
    by_contra hcon
    have hcon' : 2 ^ (a - b + 1) ≤ x := Nat.le_of_not_lt hcon
    have h1 : 2 ^ (a - b + 1) * 2 ^ b ≤ x * k := Nat.mul_le_mul hcon' hb
    rw [← Nat.pow_add] at h1
    have h2 : a - b + 1 + b = a + 1 := by omega
    rw [h2] at h1
    omega
  have hd : (a : Int) - (b : Int) = ((a - b : Nat) : Int) := by omega
  simp only [hd]
  have hs : scaledLe k (x * k) ((a - b : Nat) : Int) = decide (k * 2 ^ (a - b) ≤ x * k) := by
    unfold scaledLe
    rw [if_neg (Int.not_lt.mpr (Int.ofNat_nonneg _)), Int.natAbs_ofNat]
  rw [hs]
  by_cases hle : k * 2 ^ (a - b) ≤ x * k
  · rw [decide_eq_true hle, if_pos rfl]
    have h1 : 2 ^ (a - b) ≤ x := by
      rw [Nat.mul_comm] at hle
      exact Nat.le_of_mul_le_mul_right hle hk
    have := floorLog2_eq x (a - b) hxlt h1 hub
    rw [this]
  · rw [decide_eq_false hle, if_neg (by decide)]
    have h1 : x < 2 ^ (a - b) := by
      by_contra hcon
      apply hle
      rw [Nat.mul_comm]
      exact Nat.mul_le_mul_right k (Nat.le_of_not_lt hcon)
    have hab : b < a := by
      by_contra hcon
      have : a - b = 0 := by omega
      rw [this] at h1
      simp at h1
      omega
    -- `2^(a - b - 1) ≤ x`
    have hlb : 2 ^ (a - b - 1) ≤ x := by
      by_contra hcon
      have hcon' : x + 1 ≤ 2 ^ (a - b - 1) := by omega
      have h2 : x * k < 2 ^ (a - b - 1) * 2 ^ (b + 1) := by
        calc x * k < (x + 1) * k := Nat.mul_lt_mul_of_pos_right (by omega) hk
          _ ≤ 2 ^ (a - b - 1) * k := Nat.mul_le_mul_right k hcon'
          _ ≤ 2 ^ (a - b - 1) * 2 ^ (b + 1) := Nat.mul_le_mul_left _ (le_of_lt hb')
      rw [← Nat.pow_add] at h2
      have h3 : a - b - 1 + (b + 1) = a := by omega
      rw [h3] at h2
      omega
    have h4 : a - b - 1 + 1 = a - b := by omega
    have := floorLog2_eq x (a - b - 1) hxlt hlb (by rw [h4]; exact h1)
    rw [this]
    omega

theorem floorLog2_lt_53 (x : Nat) (hx0 : 0 < x) (hx : x < 2 ^ 53) : floorLog2 x < 53 := by
  have hlt : x < 2 ^ 2 ^ 12 :=
    lt_trans hx (Nat.pow_lt_pow_right (by decide) (by decide))
  obtain ⟨h1, _⟩ := floorLog2_spec x hx0 hlt
  exact (Nat.pow_lt_pow_iff_right (by decide : 1 < 2)).mp (lt_of_le_of_lt h1 hx)

theorem canon_shift (s : Bool) (x j : Nat) (hx0 : 0 < x) (hx : x < 2 ^ 53) (hj : j ≤ 52) :
    canon s (x * 2 ^ j) (-(j : Int)) = canon s x 0 := by
  obtain ⟨v, o, ho, rfl⟩ := Nat.exists_eq_two_pow_mul_odd (Nat.pos_iff_ne_zero.mp hx0)
  have hv : v < 53 := by
    have ho' : 0 < o := ho.pos
    have h1 : 2 ^ v ≤ 2 ^ v * o := Nat.le_mul_of_pos_right _ ho'
    exact (Nat.pow_lt_pow_iff_right (by decide : 1 < 2)).mp (lt_of_le_of_lt h1 hx)
  have h2 : 2 ^ v * o * 2 ^ j = 2 ^ (v + j) * o := by
    rw [Nat.pow_add]
    ring
  rw [h2, canon_two_pow_mul s o (v + j) _ ho (by omega), canon_two_pow_mul s o v _ ho (by omega)]
  congr 1
  push_cast
  ring

theorem roundQuot_exact (s : Bool) (x k : Nat) (hx0 : 0 < x) (hx : x < 2 ^ 53) (hk : 0 < k)
    (hxk : x * k < 2 ^ 2 ^ 12) : roundQuot s (x * k) k = canon s x 0 := by
  have hL := floorLog2_lt_53 x hx0 hx
  have hp : x * k ≠ 0 := Nat.pos_iff_ne_zero.mp (Nat.mul_pos hx0 hk)
  unfold roundQuot
  rw [if_neg hp, binaryExponent_exact x k hx0 hk hxk]
  generalize floorLog2 x = L at hL
  have hqe : max ((L : Int) - 52) (-1074) = -((52 - L : Nat) : Int) := by
    rw [max_eq_left (by omega)]
    omega
  simp only [hqe]
  generalize hj : 52 - L = j
  have hj52 : j ≤ 52 := by omega
  have hjabs : (-(j : Int)).natAbs = j := by
    rw [Int.natAbs_neg, Int.natAbs_ofNat]
  rw [hjabs]
  have hm0 : (if -(j : Int) < 0 then x * k * 2 ^ j else x * k) /
      (if -(j : Int) < 0 then k else k * 2 ^ j) = x * 2 ^ j := by
    by_cases hj0 : j = 0
    · subst hj0
      simp [Nat.mul_div_cancel x hk]
    · rw [if_pos (by omega), if_pos (by omega)]
      have : x * k * 2 ^ j = x * 2 ^ j * k := by ring
      rw [this, Nat.mul_div_cancel _ hk]
  have hr : (if -(j : Int) < 0 then x * k * 2 ^ j else x * k) %
      (if -(j : Int) < 0 then k else k * 2 ^ j) = 0 := by
    by_cases hj0 : j = 0
    · subst hj0
      simp
    · rw [if_pos (by omega), if_pos (by omega)]
      have : x * k * 2 ^ j = x * 2 ^ j * k := by ring
      rw [this, Nat.mul_mod_left]
  have hdn : 0 < (if -(j : Int) < 0 then k else k * 2 ^ j) := by
    split
    · exact hk
    · exact Nat.mul_pos hk (Nat.pow_pos (by decide))
  rw [hm0, hr]
  have hround : ¬ (2 * 0 > (if -(j : Int) < 0 then k else k * 2 ^ j) ∨
      (2 * 0 = (if -(j : Int) < 0 then k else k * 2 ^ j) ∧ x * 2 ^ j % 2 = 1)) := by
    omega
  rw [if_neg hround]
  have hne : x * 2 ^ j ≠ 0 :=
    Nat.pos_iff_ne_zero.mp (Nat.mul_pos hx0 (Nat.pow_pos (by decide)))
  rw [if_neg hne, if_neg (by omega)]
  exact canon_shift s x j hx0 hx hj52

theorem canon_val (x : Nat) (hx0 : 0 < x) (hx : x < 2 ^ 53) :
    ∃ o e : Nat, (∀ s : Bool, canon s x 0 = .fin s o (e : Int)) ∧ o * 2 ^ e = x ∧ o ≠ 0 := by
  obtain ⟨v, o, ho, rfl⟩ := Nat.exists_eq_two_pow_mul_odd (Nat.pos_iff_ne_zero.mp hx0)
  have hv : v < 53 := by
    have h1 : 2 ^ v ≤ 2 ^ v * o := Nat.le_mul_of_pos_right _ ho.pos
    exact (Nat.pow_lt_pow_iff_right (by decide : 1 < 2)).mp (lt_of_le_of_lt h1 hx)
  refine ⟨o, v, ?_, Nat.mul_comm _ _, Nat.pos_iff_ne_zero.mp ho.pos⟩
  intro s
  rw [canon_two_pow_mul s o v _ ho (by omega), zero_add]

theorem canon_inj (s : Bool) (x y : Nat) (hx0 : 0 < x) (hx : x < 2 ^ 53) (hy0 : 0 < y)
    (hy : y < 2 ^ 53) (h : canon s x 0 = canon s y 0) : x = y := by
  obtain ⟨o, e, h1, h2, _⟩ := canon_val x hx0 hx
  obtain ⟨o', e', h1', h2', _⟩ := canon_val y hy0 hy
  rw [h1 s, h1' s] at h
  injection h with _ ho he
  have he' : e = e' := by omega
  rw [← h2, ← h2', ho, he']

theorem fracOf_natCast (o e : Nat) : fracOf o (e : Int) = (o * 2 ^ e, 1) := by
  unfold fracOf
  rw [if_neg (Int.not_lt.mpr (Int.ofNat_nonneg _)), Int.natAbs_ofNat]

theorem billion_eq : billion = .fin false 1953125 9 := by
  decide!

end JSNumber

theorem toDigitsCore_eq (fuel : Nat) : ∀ (n : Nat) (acc : List Char), 0 < n → n < fuel →
    Nat.toDigitsCore 10 fuel n acc = ((Nat.digits 10 n).reverse.map Nat.digitChar) ++ acc := by
  induction fuel with
  | zero => intro n acc _ h; omega
  | succ fuel ih =>
    intro n acc h0 hlt
    rw [Nat.toDigitsCore, Nat.digits_def' (by decide) h0]
    simp only [List.reverse_cons, List.map_append, List.map_cons, List.map_nil,
      List.append_assoc, List.singleton_append]
    by_cases hz : n / 10 = 0
    · rw [if_pos hz, hz]
      simp
    · rw [if_neg hz]
      exact ih (n / 10) _ (Nat.pos_of_ne_zero hz) (by omega)

theorem toDigits_eq (n : Nat) (h0 : 0 < n) :
    Nat.toDigits 10 n = (Nat.digits 10 n).reverse.map Nat.digitChar := by
  unfold Nat.toDigits
  rw [toDigitsCore_eq (n + 1) n [] h0 (by omega), List.append_nil]

theorem toDigits_length (n : Nat) (h0 : 0 < n) :
    (Nat.toDigits 10 n).length = Nat.log 10 n + 1 := by
  rw [toDigits_eq n h0, List.length_map, List.length_reverse,
    Nat.digits_len 10 n (by decide) (Nat.pos_iff_ne_zero.mp h0)]

theorem toDigits_mul_pow (s j : Nat) (h0 : 0 < s) :
    Nat.toDigits 10 (s * 10 ^ j) = Nat.toDigits 10 s ++ List.replicate j '0' := by
  rw [toDigits_eq _ (Nat.mul_pos h0 (Nat.pow_pos (by decide))), toDigits_eq s h0,
    Nat.mul_comm, Nat.digits_base_pow_mul (by decide) h0]
  have h00 : Nat.digitChar 0 = '0' := by decide
  simp [h00]

theorem digitChar_isDigit : ∀ d : Fin 10, isDigit (Nat.digitChar d.val) = true ∧
    (Nat.digitChar d.val).toNat - '0'.toNat = d.val ∧
    (Nat.digitChar d.val = '0' → d.val = 0) := by
  decide

theorem toDigits_isDigit (n : Nat) (h0 : 0 < n) : ∀ c ∈ Nat.toDigits 10 n, isDigit c = true := by
  intro c hc
  rw [toDigits_eq n h0, List.mem_map] at hc
  obtain ⟨d, hd, rfl⟩ := hc
  rw [List.mem_reverse] at hd
  exact (digitChar_isDigit ⟨d, Nat.digits_lt_base (by decide) hd⟩).1

theorem digitsValue_map (l : List Nat) (hl : ∀ d ∈ l, d < 10) (a : Nat) :
    (l.reverse.map Nat.digitChar).foldl (fun acc d => 10 * acc + (d.toNat - '0'.toNat)) a =
      Nat.ofDigits 10 l + 10 ^ l.length * a := by
  induction l generalizing a with
  | nil => simp
  | cons d l ih =>
    have hd : d < 10 := hl d (List.mem_cons_self d l)
    have h1 := (digitChar_isDigit ⟨d, hd⟩).2.1
    simp only at h1
    rw [List.reverse_cons, List.map_append, List.foldl_append,
      ih (fun x hx => hl x (List.mem_cons_of_mem d hx))]
    simp only [List.map_cons, List.map_nil, List.foldl_cons, List.foldl_nil, h1,
      Nat.ofDigits_cons, List.length_cons]
    ring

theorem digitsValue_toDigits (n : Nat) (h0 : 0 < n) : digitsValue (Nat.toDigits 10 n) = n := by
  unfold digitsValue
  rw [toDigits_eq n h0, digitsValue_map _ (fun d hd => Nat.digits_lt_base (by decide) hd) 0,
    Nat.ofDigits_digits]
  simp

theorem toDigits_head (n : Nat) (h0 : 0 < n) :
    ∃ c rest, Nat.toDigits 10 n = c :: rest ∧ c ≠ '0' := by
  have hne : Nat.digits 10 n ≠ [] := Nat.digits_ne_nil_iff_ne_zero.mpr (Nat.pos_iff_ne_zero.mp h0)
  have hlast := Nat.getLast_digit_ne_zero 10 (Nat.pos_iff_ne_zero.mp h0)
  have hmem : (Nat.digits 10 n).getLast hne ∈ Nat.digits 10 n := List.getLast_mem hne
  have hlt := Nat.digits_lt_base (by decide : 1 < 10) hmem
  rw [toDigits_eq n h0]
  obtain ⟨l, hl⟩ : ∃ l, Nat.digits 10 n = l ++ [(Nat.digits 10 n).getLast hne] :=
    ⟨_, (List.dropLast_append_getLast hne).symm⟩
  generalize (Nat.digits 10 n).getLast hne = d at hl hlast hlt
  rw [hl]
  refine ⟨Nat.digitChar d, l.reverse.map Nat.digitChar, by simp, ?_⟩
  intro hc
  exact hlast ((digitChar_isDigit ⟨d, hlt⟩).2.2 hc)

namespace JSNumber

theorem decFrac_natCast (s j : Nat) : decFrac s (j : Int) = (s * 10 ^ j, 1) := by
  unfold decFrac
  rw [if_neg (Int.not_lt.mpr (Int.ofNat_nonneg _)), Int.natAbs_ofNat]

theorem ofNat_exact (x : Nat) (hx0 : 0 < x) (hx : x < 2 ^ 53) :
    roundQuot false x 1 = canon false x 0 := by
  have := roundQuot_exact false x 1 hx0 hx (by decide)
    (by
      rw [Nat.mul_one]
      exact lt_trans hx (Nat.pow_lt_pow_right (by decide) (by decide)))
  rw [Nat.mul_one] at this
  exact this

theorem shortest_step (n L fuel k : Nat) (hn0 : 0 < n) (hk1 : 1 ≤ k) (hkL : k ≤ L)
    (hL : L ≤ 15) (hlow : 10 ^ (L - 1) ≤ n) (hhigh : n < 10 ^ L) :
    shortest (canon false n 0) n 1 (L : Int) (fuel + 1) k =
      if n % 10 ^ (L - k) = 0 then (n / 10 ^ (L - k), (L : Int))
      else shortest (canon false n 0) n 1 (L : Int) fuel (k + 1) := by
  have ht : (L : Int) - (k : Int) = ((L - k : Nat) : Int) := by omega
  have hLk : L - 1 = (k - 1) + (L - k) := by omega
  generalize hj : L - k = j at ht hLk
  have hpj : 0 < 10 ^ j := Nat.pow_pos (by decide)
  have h1015 : (10 : Nat) ^ L ≤ 10 ^ 15 := Nat.pow_le_pow_right (by decide) hL
  have hj15 : (10 : Nat) ^ j ≤ 10 ^ 15 := Nat.pow_le_pow_right (by decide) (by omega)
  have h53 : (2 : Nat) * 10 ^ 15 < 2 ^ 53 := by decide
  -- the candidate below `n`
  have hlo : 10 ^ (k - 1) ≤ n / 10 ^ j := by
    rw [Nat.le_div_iff_mul_le hpj, ← Nat.pow_add, ← hLk]
    exact hlow
  have hlo0 : 0 < n / 10 ^ j := lt_of_lt_of_le (Nat.pow_pos (by decide)) hlo
  have hmul : n / 10 ^ j * 10 ^ j ≤ n := Nat.div_mul_le_self n _
  have hdm : n / 10 ^ j * 10 ^ j + n % 10 ^ j = n := by
    rw [Nat.mul_comm]
    exact Nat.div_add_mod n _
  have hmodlt : n % 10 ^ j < 10 ^ j := Nat.mod_lt n hpj
  have hrqLo : roundQuot false (n / 10 ^ j * 10 ^ j) 1 = canon false (n / 10 ^ j * 10 ^ j) 0 :=
    ofNat_exact _ (Nat.mul_pos hlo0 hpj) (by omega)
  have hhi : (n / 10 ^ j + 1) * 10 ^ j = n / 10 ^ j * 10 ^ j + 10 ^ j := by ring
  have hrqHi : roundQuot false ((n / 10 ^ j + 1) * 10 ^ j) 1 =
      canon false ((n / 10 ^ j + 1) * 10 ^ j) 0 :=
    ofNat_exact _ (Nat.mul_pos (by omega) hpj) (by omega)
  have hn53 : n < 2 ^ 53 := by omega
  have hokHi : ¬ canon false ((n / 10 ^ j + 1) * 10 ^ j) 0 = canon false n 0 := by
    intro h
    have := canon_inj false _ _ (Nat.mul_pos (by omega) hpj) (by omega) hn0 hn53 h
    omega
  rw [shortest]
  simp only [ht, decFrac_natCast, Nat.one_mul, Int.natAbs_ofNat, Int.natAbs_cast, hrqLo, hrqHi,
    if_neg (Int.not_lt.mpr (Int.ofNat_nonneg j)), decide_eq_false hokHi, Bool.and_false,
    Bool.false_eq_true, if_false]
  by_cases hr : n % 10 ^ j = 0
  · have heq : n / 10 ^ j * 10 ^ j = n := by omega
    rw [if_pos hr]
    simp only [heq, decide_eq_true hlo, decide_True, Bool.and_self, if_true]
  · have hne : ¬ canon false (n / 10 ^ j * 10 ^ j) 0 = canon false n 0 := by
      intro h
      have := canon_inj false _ _ (Nat.mul_pos hlo0 hpj) (by omega) hn0 hn53 h
      omega
    rw [if_neg hr]
    simp only [decide_eq_false hne, Bool.and_false, Bool.false_eq_true, if_false]

theorem formatDigits_int (ds : Text) (L : Nat) (hk : ds.length ≤ L) (hL : L ≤ 15) :
    formatDigits ds (L : Int) = ds ++ List.replicate (L - ds.length) '0' := by
  unfold formatDigits
  simp only
  rw [if_pos ⟨by omega, by omega⟩]
  congr 2
  omega

theorem shortest_int (n L : Nat) (hn0 : 0 < n) (hL : L ≤ 15) (hlow : 10 ^ (L - 1) ≤ n)
    (hhigh : n < 10 ^ L) (fuel : Nat) : ∀ k : Nat, 1 ≤ k → k ≤ L → L - k < fuel →
    formatDigits (Nat.toDigits 10 (shortest (canon false n 0) n 1 (L : Int) fuel k).1)
      (shortest (canon false n 0) n 1 (L : Int) fuel k).2 = Nat.toDigits 10 n := by
  induction fuel with
  | zero => intro k _ _ h; omega
  | succ fuel ih =>
    intro k hk1 hkL hfuel
    rw [shortest_step n L fuel k hn0 hk1 hkL hL hlow hhigh]
    have hpj : 0 < 10 ^ (L - k) := Nat.pow_pos (by decide)
    by_cases hr : n % 10 ^ (L - k) = 0
    · rw [if_pos hr]
      simp only
      have hLk : L - 1 = (k - 1) + (L - k) := by omega
      have hLk' : L = k + (L - k) := by omega
      have hlo : 10 ^ (k - 1) ≤ n / 10 ^ (L - k) := by
        rw [Nat.le_div_iff_mul_le hpj, ← Nat.pow_add, ← hLk]
        exact hlow
      have hlo0 : 0 < n / 10 ^ (L - k) := lt_of_lt_of_le (Nat.pow_pos (by decide)) hlo
      have hup : n / 10 ^ (L - k) < 10 ^ k := by
        rw [Nat.div_lt_iff_lt_mul hpj, ← Nat.pow_add, ← hLk']
        exact hhigh
      have hlen : (Nat.toDigits 10 (n / 10 ^ (L - k))).length = k := by
        rw [toDigits_length _ hlo0, Nat.log_eq_of_pow_le_of_lt_pow hlo (by
          have : k - 1 + 1 = k := by omega
          rw [this]
          exact hup)]
        omega
      rw [formatDigits_int _ L (by omega) hL, hlen, ← toDigits_mul_pow _ _ hlo0]
      congr 1
      have := Nat.div_add_mod n (10 ^ (L - k))
      rw [Nat.mul_comm]
      omega
    · rw [if_neg hr]
      have hlt : k < L := by
        by_contra hcon
        have : L - k = 0 := by omega
        rw [this] at hr
        exact hr (Nat.mod_one n)
      exact ih (k + 1) (by omega) (by omega) (by omega)

theorem toString_int (s : Bool) (n : Nat) (hn0 : 0 < n) (hn : n < 10 ^ 15) :
    toString (canon s n 0) = (if s then ['-'] else []) ++ Nat.toDigits 10 n := by
  have hn53 : n < 2 ^ 53 := lt_trans hn (by decide)
  have hne : n ≠ 0 := Nat.pos_iff_ne_zero.mp hn0
  have hlow : 10 ^ Nat.log 10 n ≤ n := Nat.pow_log_le_self 10 hne
  have hhigh : n < 10 ^ (Nat.log 10 n + 1) := Nat.lt_pow_succ_log_self (by decide) n
  have hL : Nat.log 10 n + 1 ≤ 15 := by
    have : Nat.log 10 n < 15 := by
      apply (Nat.pow_lt_pow_iff_right (by decide : 1 < 10)).mp
      exact lt_of_le_of_lt hlow hn
    omega
  have hsh := shortest_int n (Nat.log 10 n + 1) hn0 hL (by simpa using hlow) hhigh 17 1
    (le_refl 1) (by omega) (by omega)
  obtain ⟨o, e, h1, h2, ho⟩ := canon_val n hn0 hn53
  rw [h1 false] at hsh
  rw [h1 s]
  have hdec : decExponent n 1 = ((Nat.log 10 n + 1 : Nat) : Int) := by
    unfold decExponent
    rw [if_pos (by omega), Nat.div_one, toDigits_length n hn0]
  simp only [toString, if_neg ho, fracOf_natCast, h2, hdec]
  congr 1

/-! ### Error bounds of rounding -/

theorem two_zpow_sub (a b : Nat) : (2 : ℚ) ^ ((a : Int) - (b : Int)) = (2 : ℚ) ^ a / (2 : ℚ) ^ b := by
  rw [zpow_sub₀ (by norm_num : (2 : ℚ) ≠ 0), zpow_natCast, zpow_natCast]

theorem scaledLe_iff (q p : Nat) (d : Int) (hq : 0 < q) :
    scaledLe q p d = true ↔ (2 : ℚ) ^ d ≤ (p : ℚ) / q := by
  have hq' : (0 : ℚ) < q := by exact_mod_cast hq
  unfold scaledLe
  by_cases hd : d < 0
  · rw [if_pos hd, decide_eq_true_iff]
    obtain ⟨k, hk⟩ : ∃ k : Nat, d = -(k : Int) := ⟨d.natAbs, by omega⟩
    subst hk
    rw [Int.natAbs_neg, Int.natAbs_ofNat, zpow_neg, zpow_natCast, le_div_iff₀ hq',
      inv_mul_le_iff₀ (by positivity)]
    constructor
    · intro h
      have : ((q : Nat) : ℚ) ≤ ((p * 2 ^ k : Nat) : ℚ) := by exact_mod_cast h
      push_cast at this
      linarith
    · intro h
      have : ((q : Nat) : ℚ) ≤ ((p * 2 ^ k : Nat) : ℚ) := by
        push_cast
        linarith
      exact_mod_cast this
  · rw [if_neg hd, decide_eq_true_iff]
    obtain ⟨k, hk⟩ : ∃ k : Nat, d = (k : Int) := ⟨d.natAbs, by omega⟩
    subst hk
    rw [Int.natAbs_ofNat, zpow_natCast, le_div_iff₀ hq']
    constructor
    · intro h
      have : ((q * 2 ^ k : Nat) : ℚ) ≤ ((p : Nat) : ℚ) := by exact_mod_cast h
      push_cast at this
      linarith
    · intro h
      have : ((q * 2 ^ k : Nat) : ℚ) ≤ ((p : Nat) : ℚ) := by
        push_cast
        linarith
      exact_mod_cast this

/-- The exponent found by `binaryExponent` brackets the quotient:
`2^ex ≤ p / q < 2^(ex + 1)`. -/
theorem binaryExponent_spec (p q : Nat) (hp : 0 < p) (hq : 0 < q) (hp' : p < 2 ^ 2 ^ 12)
    (hq' : q < 2 ^ 2 ^ 12) :
    (2 : ℚ) ^ binaryExponent p q ≤ (p : ℚ) / q ∧
      (p : ℚ) / q < (2 : ℚ) ^ (binaryExponent p q + 1) := by
  obtain ⟨ha, ha'⟩ := floorLog2_spec p hp hp'
  obtain ⟨hb, hb'⟩ := floorLog2_spec q hq hq'
  have hqQ : (0 : ℚ) < q := by exact_mod_cast hq
  unfold binaryExponent
  generalize floorLog2 p = a at ha ha' ⊢
  generalize floorLog2 q = b at hb hb' ⊢
  have haQ : ((2 : ℚ) ^ a) ≤ p := by exact_mod_cast ha
  have haQ' : (p : ℚ) < (2 : ℚ) ^ (a + 1) := by exact_mod_cast ha'
  have hbQ : ((2 : ℚ) ^ b) ≤ q := by exact_mod_cast hb
  have hbQ' : (q : ℚ) < (2 : ℚ) ^ (b + 1) := by exact_mod_cast hb'
  have h2a : (0 : ℚ) < 2 ^ a := by positivity
  have h2b : (0 : ℚ) < 2 ^ b := by positivity
  simp only
  by_cases hs : scaledLe q p ((a : Int) - (b : Int)) = true
  · rw [if_pos hs]
    refine ⟨(scaledLe_iff q p _ hq).mp hs, ?_⟩
    have h1 : (a : Int) - (b : Int) + 1 = ((a + 1 : Nat) : Int) - (b : Int) := by push_cast; ring
    rw [h1, two_zpow_sub, div_lt_div_iff₀ hqQ h2b]
    calc (p : ℚ) * 2 ^ b < 2 ^ (a + 1) * 2 ^ b := by
          apply mul_lt_mul_of_pos_right haQ' h2b
      _ ≤ 2 ^ (a + 1) * q := by
          apply mul_le_mul_of_nonneg_left hbQ (by positivity)
  · rw [if_neg hs]
    have hlt : (p : ℚ) / q < (2 : ℚ) ^ ((a : Int) - (b : Int)) := by
      by_contra hcon
      exact hs ((scaledLe_iff q p _ hq).mpr (not_lt.mp hcon))
    refine ⟨?_, by simpa using hlt⟩
    have h1 : (a : Int) - (b : Int) - 1 = (a : Int) - ((b + 1 : Nat) : Int) := by push_cast; ring
    rw [h1, two_zpow_sub, div_le_div_iff₀ (by positivity) hqQ]
    calc (2 : ℚ) ^ a * q ≤ 2 ^ a * 2 ^ (b + 1) := by
          apply mul_le_mul_of_nonneg_left (le_of_lt hbQ') (by positivity)
      _ ≤ p * 2 ^ (b + 1) := by
          apply mul_le_mul_of_nonneg_right haQ (by positivity)

theorem two_zpow_unique (x : ℚ) (a b : Int) (ha : (2 : ℚ) ^ a ≤ x) (ha' : x < (2 : ℚ) ^ (a + 1))
    (hb : (2 : ℚ) ^ b ≤ x) (hb' : x < (2 : ℚ) ^ (b + 1)) : a = b := by
  have h1 : (2 : ℚ) ^ a < (2 : ℚ) ^ (b + 1) := lt_of_le_of_lt ha hb'
  have h2 : (2 : ℚ) ^ b < (2 : ℚ) ^ (a + 1) := lt_of_le_of_lt hb ha'
  rw [zpow_lt_zpow_iff_right₀ (by norm_num : (1 : ℚ) < 2)] at h1 h2
  omega

/-- Rounding a quotient of naturals to the nearest integer, ties to even, moves it
by at most one half. -/
theorem halfEven_spec (N D : Nat) (hD : 0 < D) :
    |(((if 2 * (N % D) > D ∨ (2 * (N % D) = D ∧ N / D % 2 = 1) then N / D + 1 else N / D : Nat) : ℚ)
        - (N : ℚ) / D)| ≤ 1 / 2 ∧
    N / D ≤ (if 2 * (N % D) > D ∨ (2 * (N % D) = D ∧ N / D % 2 = 1) then N / D + 1 else N / D) ∧
    (if 2 * (N % D) > D ∨ (2 * (N % D) = D ∧ N / D % 2 = 1) then N / D + 1 else N / D) ≤
      N / D + 1 := by
  have hDQ : (0 : ℚ) < D := by exact_mod_cast hD
  have hdm : (N : ℚ) / D = (N / D : Nat) + ((N % D : Nat) : ℚ) / D := by
    have h := Nat.div_add_mod N D
    have h' : ((D * (N / D) + N % D : Nat) : ℚ) = N := by exact_mod_cast h
    push_cast at h'
    field_simp
    linarith
  have hr : N % D < D := Nat.mod_lt N hD
  have hrQ : ((N % D : Nat) : ℚ) < D := by exact_mod_cast hr
  have hr0 : (0 : ℚ) ≤ ((N % D : Nat) : ℚ) := by positivity
  split
  · rename_i h
    have h2 : D ≤ 2 * (N % D) := by omega
    have h2Q : (D : ℚ) ≤ 2 * ((N % D : Nat) : ℚ) := by exact_mod_cast h2
    refine ⟨?_, by omega, by omega⟩
    rw [hdm]
    push_cast
    have : ((N % D : Nat) : ℚ) / D ≥ 1 / 2 := by
      rw [ge_iff_le, div_le_div_iff₀ (by norm_num) hDQ]
      linarith
    have h3 : ((N % D : Nat) : ℚ) / D < 1 := by
      rw [div_lt_one hDQ]
      exact hrQ
    rw [abs_le]
    constructor <;> linarith
  · rename_i h
    have h2 : 2 * (N % D) ≤ D := by omega
    have h2Q : 2 * ((N % D : Nat) : ℚ) ≤ D := by exact_mod_cast h2
    refine ⟨?_, by omega, by omega⟩
    rw [hdm]
    have : ((N % D : Nat) : ℚ) / D ≤ 1 / 2 := by
      rw [div_le_div_iff₀ hDQ (by norm_num)]
      linarith
    have h3 : 0 ≤ ((N % D : Nat) : ℚ) / D := by positivity
    rw [abs_le]
    constructor <;> linarith

theorem two_zpow_split (ex : Int) (k : Nat) :
    (2 : ℚ) ^ ex = (2 : ℚ) ^ (ex - k) * (2 : ℚ) ^ k := by
  rw [← zpow_natCast, ← zpow_add₀ (by norm_num : (2 : ℚ) ≠ 0)]
  congr 1
  ring

/-- In the normal range `roundQuot` returns a significand of 53 bits at the
exponent of the quotient, at most half a unit in the last place away from it. -/
theorem roundQuot_spec (p q : Nat) (hp : 0 < p) (hq : 0 < q) (hp' : p < 2 ^ 2 ^ 12)
    (hq' : q < 2 ^ 2 ^ 12) (ex : Int) (hex : binaryExponent p q = ex) (hlo : -1022 ≤ ex)
    (hhi : ex ≤ 1022) :
    ∃ m : Nat, 2 ^ 52 ≤ m ∧ m ≤ 2 ^ 53 ∧ (∀ s : Bool, roundQuot s p q = canon s m (ex - 52)) ∧
      |(m : ℚ) * (2 : ℚ) ^ (ex - 52) - (p : ℚ) / q| ≤ (2 : ℚ) ^ (ex - 52) / 2 := by
  have hp0 : p ≠ 0 := Nat.pos_iff_ne_zero.mp hp
  have hqQ : (0 : ℚ) < q := by exact_mod_cast hq
  obtain ⟨hb1, hb2⟩ := binaryExponent_spec p q hp hq hp' hq'
  rw [hex] at hb1 hb2
  have hu : (0 : ℚ) < (2 : ℚ) ^ (ex - 52) := by positivity
  have hu1 : (2 : ℚ) ^ ex = (2 : ℚ) ^ (ex - 52) * 2 ^ 52 := by
    have := two_zpow_split ex 52
    exact_mod_cast this
  have hu2 : (2 : ℚ) ^ (ex + 1) = (2 : ℚ) ^ (ex - 52) * 2 ^ 53 := by
    have := two_zpow_split (ex + 1) 53
    have h : ex + 1 - ((53 : Nat) : Int) = ex - 52 := by push_cast; ring
    rw [h] at this
    exact_mod_cast this
  rw [hu1] at hb1
  rw [hu2] at hb2
  have hqe : max (ex - 52) (-1074) = ex - 52 := max_eq_left (by omega)
  generalize hN : (if ex - 52 < 0 then p * 2 ^ (ex - 52).natAbs else p) = N
  generalize hD : (if ex - 52 < 0 then q else q * 2 ^ (ex - 52).natAbs) = D
  have hND : 0 < D ∧ (N : ℚ) / D = (p : ℚ) / q / (2 : ℚ) ^ (ex - 52) := by
    by_cases hneg : ex - 52 < 0
    · rw [if_pos hneg] at hN hD
      obtain ⟨k, hk⟩ : ∃ k : Nat, ex - 52 = -(k : Int) := ⟨(ex - 52).natAbs, by omega⟩
      rw [hk, Int.natAbs_neg, Int.natAbs_ofNat] at hN
      rw [hk, zpow_neg, zpow_natCast, ← hN, ← hD]
      refine ⟨hq, ?_⟩
      push_cast
      field_simp
    · rw [if_neg hneg] at hN hD
      obtain ⟨k, hk⟩ : ∃ k : Nat, ex - 52 = (k : Int) := ⟨(ex - 52).natAbs, by omega⟩
      rw [hk, Int.natAbs_ofNat] at hD
      rw [hk, zpow_natCast, ← hN, ← hD]
      refine ⟨Nat.mul_pos hq (Nat.pow_pos (by decide)), ?_⟩
      push_cast
      field_simp
  obtain ⟨hDpos, hy⟩ := hND
  have hDQ : (0 : ℚ) < D := by exact_mod_cast hDpos
  obtain ⟨herr, hge, hle⟩ := halfEven_spec N D hDpos
  have hy1 : (2 : ℚ) ^ 52 ≤ (N : ℚ) / D := by
    rw [hy, le_div_iff₀ hu]
    linarith
  have hy2 : (N : ℚ) / D < (2 : ℚ) ^ 53 := by
    rw [hy, div_lt_iff₀ hu]
    linarith
  have hfl1 : 2 ^ 52 ≤ N / D := by
    rw [Nat.le_div_iff_mul_le hDpos]
    rw [le_div_iff₀ hDQ] at hy1
    exact_mod_cast hy1
  have hfl2 : N / D < 2 ^ 53 := by
    rw [Nat.div_lt_iff_lt_mul hDpos]
    rw [div_lt_iff₀ hDQ] at hy2
    exact_mod_cast hy2
  have hdef : ∀ s : Bool, roundQuot s p q =
      (if (if 2 * (N % D) > D ∨ (2 * (N % D) = D ∧ N / D % 2 = 1) then N / D + 1
          else N / D) = 0 then .fin s 0 0
        else if ex - 52 > 971 ∨ (ex - 52 = 971 ∧
          (if 2 * (N % D) > D ∨ (2 * (N % D) = D ∧ N / D % 2 = 1) then N / D + 1
            else N / D) ≥ 2 ^ 53) then .inf s
        else canon s (if 2 * (N % D) > D ∨ (2 * (N % D) = D ∧ N / D % 2 = 1) then N / D + 1
          else N / D) (ex - 52)) := by
    intro s
    unfold roundQuot
    rw [if_neg hp0, hex]
    simp only [hqe, hN, hD]
  generalize (if 2 * (N % D) > D ∨ (2 * (N % D) = D ∧ N / D % 2 = 1) then N / D + 1
    else N / D) = m at herr hge hle hdef
  have hm1 : 2 ^ 52 ≤ m := le_trans hfl1 hge
  have hm2 : m ≤ 2 ^ 53 := by omega
  have hm0 : m ≠ 0 := by
    have : 0 < 2 ^ 52 := by decide
    omega
  refine ⟨m, hm1, hm2, ?_, ?_⟩
  · intro s
    rw [hdef s, if_neg hm0, if_neg (by omega)]
  · generalize (2 : ℚ) ^ (ex - 52) = u at hu hb1 hb2 hy ⊢
    have h1 : (m : ℚ) * u - (p : ℚ) / q = ((m : ℚ) - (N : ℚ) / D) * u := by
      rw [hy]
      field_simp
      ring
    rw [h1, abs_mul, abs_of_pos hu]
    calc |(m : ℚ) - (N : ℚ) / D| * u ≤ 1 / 2 * u := by
          apply mul_le_mul_of_nonneg_right herr (le_of_lt hu)
      _ = u / 2 := by ring

theorem halfEven_scale (N D c : Nat) (hc : 0 < c) :
    (if 2 * (N * c % (D * c)) > D * c ∨ (2 * (N * c % (D * c)) = D * c ∧
        N * c / (D * c) % 2 = 1) then N * c / (D * c) + 1 else N * c / (D * c)) =
    (if 2 * (N % D) > D ∨ (2 * (N % D) = D ∧ N / D % 2 = 1) then N / D + 1 else N / D) := by
  rw [Nat.mul_div_mul_right N D hc, Nat.mul_mod_mul_right]
  have h1 : 2 * (N % D * c) > D * c ↔ 2 * (N % D) > D := by
    rw [← Nat.mul_assoc]
    exact Nat.mul_lt_mul_right hc
  have h2 : 2 * (N % D * c) = D * c ↔ 2 * (N % D) = D := by
    rw [← Nat.mul_assoc]
    exact Nat.mul_left_inj (Nat.pos_iff_ne_zero.mp hc)
  simp only [h1, h2]

theorem binaryExponent_scale (p q c : Nat) (hp : 0 < p) (hq : 0 < q) (hc : 0 < c)
    (hp' : p * c < 2 ^ 2 ^ 12) (hq' : q * c < 2 ^ 2 ^ 12) :
    binaryExponent (p * c) (q * c) = binaryExponent p q := by
  have hp2 : p < 2 ^ 2 ^ 12 := lt_of_le_of_lt (Nat.le_mul_of_pos_right p hc) hp'
  have hq2 : q < 2 ^ 2 ^ 12 := lt_of_le_of_lt (Nat.le_mul_of_pos_right q hc) hq'
  obtain ⟨h1, h2⟩ := binaryExponent_spec (p * c) (q * c) (Nat.mul_pos hp hc) (Nat.mul_pos hq hc)
    hp' hq'
  obtain ⟨h3, h4⟩ := binaryExponent_spec p q hp hq hp2 hq2
  have hcQ : (c : ℚ) ≠ 0 := by
    have : (0 : ℚ) < c := by exact_mod_cast hc
    exact ne_of_gt this
  have heq : ((p * c : Nat) : ℚ) / ((q * c : Nat) : ℚ) = (p : ℚ) / q := by
    push_cast
    rw [mul_div_mul_right _ _ hcQ]
  rw [heq] at h1 h2
  exact two_zpow_unique _ _ _ h1 h2 h3 h4

/-- The Number nearest to a quotient does not depend on a common factor. -/
theorem roundQuot_scale (s : Bool) (p q c : Nat) (hp : 0 < p) (hq : 0 < q) (hc : 0 < c)
    (hp' : p * c < 2 ^ 2 ^ 12) (hq' : q * c < 2 ^ 2 ^ 12) :
    roundQuot s (p * c) (q * c) = roundQuot s p q := by
  have hpc : p * c ≠ 0 := Nat.pos_iff_ne_zero.mp (Nat.mul_pos hp hc)
  have hp0 : p ≠ 0 := Nat.pos_iff_ne_zero.mp hp
  unfold roundQuot
  rw [if_neg hpc, if_neg hp0, binaryExponent_scale p q c hp hq hc hp' hq']
  generalize max (binaryExponent p q - 52) (-1074) = qe
  by_cases hneg : qe < 0
  · simp only [if_pos hneg]
    have h1 : p * c * 2 ^ qe.natAbs = p * 2 ^ qe.natAbs * c := by ring
    rw [h1, halfEven_scale _ _ c hc]
  · simp only [if_neg hneg]
    have h1 : q * c * 2 ^ qe.natAbs = q * 2 ^ qe.natAbs * c := by ring
    rw [h1, halfEven_scale _ _ c hc]

/-- Equal quotients have the same nearest Number. -/
theorem roundQuot_congr (s : Bool) (p q p' q' : Nat) (hp : 0 < p) (hq : 0 < q) (hq2 : 0 < q')
    (h : p * q' = p' * q) (hb1 : p * q' < 2 ^ 2 ^ 12) (hb2 : q * q' < 2 ^ 2 ^ 12) :
    roundQuot s p q = roundQuot s p' q' := by
  have hp2 : 0 < p' := by
    rcases Nat.eq_zero_or_pos p' with h0 | h0
    · rw [h0, Nat.zero_mul] at h
      have := Nat.mul_pos hp hq2
      omega
    · exact h0
  rw [← roundQuot_scale s p q q' hp hq hq2 hb1 hb2, h, Nat.mul_comm q q',
    roundQuot_scale s p' q' q hp2 hq2 hq (by rw [← h]; exact hb1)
      (by rw [Nat.mul_comm]; exact hb2)]

theorem canon_general (m : Nat) (e : Int) (hm : 0 < m) (hm' : m ≤ 2 ^ 53) :
    ∃ o v : Nat, Odd o ∧ m = 2 ^ v * o ∧ v ≤ 53 ∧ ∀ s : Bool, canon s m e = .fin s o (e + v) := by
  obtain ⟨v, o, ho, rfl⟩ := Nat.exists_eq_two_pow_mul_odd (Nat.pos_iff_ne_zero.mp hm)
  have hv : v ≤ 53 := by
    have h1 : 2 ^ v ≤ 2 ^ v * o := Nat.le_mul_of_pos_right _ ho.pos
    exact (Nat.pow_le_pow_iff_right (by decide : 1 < 2)).mp (le_trans h1 hm')
  exact ⟨o, v, ho, rfl, hv, fun s => canon_two_pow_mul s o v e ho (by omega)⟩

theorem fracOf_value (m : Nat) (e : Int) :
    0 < (fracOf m e).2 ∧ ((fracOf m e).1 : ℚ) / (fracOf m e).2 = (m : ℚ) * (2 : ℚ) ^ e := by
  unfold fracOf
  by_cases he : e < 0
  · rw [if_pos he]
    obtain ⟨k, hk⟩ : ∃ k : Nat, e = -(k : Int) := ⟨e.natAbs, by omega⟩
    subst hk
    rw [Int.natAbs_neg, Int.natAbs_ofNat, zpow_neg, zpow_natCast]
    refine ⟨Nat.pow_pos (by decide), ?_⟩
    push_cast
    rw [div_eq_mul_inv]
  · rw [if_neg he]
    obtain ⟨k, hk⟩ : ∃ k : Nat, e = (k : Int) := ⟨e.natAbs, by omega⟩
    subst hk
    rw [Int.natAbs_ofNat, zpow_natCast]
    refine ⟨Nat.one_pos, ?_⟩
    push_cast
    rw [div_one]

theorem fracOf_bound (m : Nat) (e : Int) (A B : Nat) (hm : m < 2 ^ A) (he : e.natAbs ≤ B) :
    (fracOf m e).1 < 2 ^ (A + B) ∧ (fracOf m e).2 ≤ 2 ^ B := by
  have hpow : 2 ^ e.natAbs ≤ 2 ^ B := Nat.pow_le_pow_right (by decide) he
  have hA : 2 ^ A ≤ 2 ^ (A + B) := Nat.pow_le_pow_right (by decide) (by omega)
  unfold fracOf
  split
  · exact ⟨lt_of_lt_of_le hm hA, hpow⟩
  · refine ⟨?_, Nat.one_le_two_pow⟩
    rw [Nat.pow_add]
    calc m * 2 ^ e.natAbs ≤ m * 2 ^ B := Nat.mul_le_mul_left _ hpow
      _ < 2 ^ A * 2 ^ B := Nat.mul_lt_mul_of_pos_right hm (Nat.pow_pos (by decide))

/-- The Number that `roundQuot` returns, as an odd significand and an exponent,
with its distance from the quotient. -/
theorem roundQuot_value (p q : Nat) (hp : 0 < p) (hq : 0 < q) (hp' : p < 2 ^ 2 ^ 12)
    (hq' : q < 2 ^ 2 ^ 12) (ex : Int) (hex : binaryExponent p q = ex) (hlo : -1022 ≤ ex)
    (hhi : ex ≤ 1022) :
    ∃ (o : Nat) (e : Int), Odd o ∧ o ≤ 2 ^ 53 ∧ ex - 52 ≤ e ∧ e ≤ ex + 1 ∧
      (∀ s : Bool, roundQuot s p q = .fin s o e) ∧
      |(o : ℚ) * (2 : ℚ) ^ e - (p : ℚ) / q| ≤ (2 : ℚ) ^ (ex - 52) / 2 := by
  obtain ⟨m, hm1, hm2, hrq, herr⟩ := roundQuot_spec p q hp hq hp' hq' ex hex hlo hhi
  have hm0 : 0 < m := lt_of_lt_of_le (by decide) hm1
  obtain ⟨o, v, ho, hmo, hv, hcan⟩ := canon_general m (ex - 52) hm0 hm2
  refine ⟨o, ex - 52 + v, ho, ?_, by omega, by omega, ?_, ?_⟩
  · have : o ≤ 2 ^ v * o := Nat.le_mul_of_pos_left o (Nat.pow_pos (by decide))
    omega
  · intro s
    rw [hrq s, hcan s]
  · have hval : (o : ℚ) * (2 : ℚ) ^ (ex - 52 + (v : Int)) = (m : ℚ) * (2 : ℚ) ^ (ex - 52) := by
      rw [zpow_add₀ (by norm_num : (2 : ℚ) ≠ 0), zpow_natCast, hmo]
      push_cast
      ring
    rw [hval]
    exact herr

theorem zpow_two_lt_of (x : ℚ) (a b : Int) (h1 : (2 : ℚ) ^ a ≤ x) (h2 : x < (2 : ℚ) ^ b) :
    a < b := by
  have := lt_of_le_of_lt h1 h2
  rwa [zpow_lt_zpow_iff_right₀ (by norm_num : (1 : ℚ) < 2)] at this

/-- The Number nearest to `n / 10^9` for `1000 ≤ n < 4194304 * 10^9`: its shape
and its relative and absolute distance from `n / 10^9`. -/
theorem nearest_props (n : Nat) (hn1 : 1000 ≤ n) (hn2 : n < 4194304 * 10 ^ 9) :
    ∃ (o : Nat) (e : Int), Odd o ∧ o ≤ 2 ^ 53 ∧ -72 ≤ e ∧ e ≤ 22 ∧
      (∀ s : Bool, roundQuot s n (10 ^ 9) = .fin s o e) ∧
      |(o : ℚ) * (2 : ℚ) ^ e - (n : ℚ) / 10 ^ 9| ≤ (n : ℚ) / 10 ^ 9 / 2 ^ 53 ∧
      |(o : ℚ) * (2 : ℚ) ^ e - (n : ℚ) / 10 ^ 9| ≤ 1 / 2 ^ 32 := by
  have hn0 : 0 < n := by omega
  have hnb : n < 2 ^ 2 ^ 12 :=
    lt_trans (lt_trans hn2 (by decide : 4194304 * 10 ^ 9 < 2 ^ 52))
      (Nat.pow_lt_pow_right (by decide) (by decide))
  have hqb : 10 ^ 9 < 2 ^ 2 ^ 12 :=
    lt_trans (by decide : 10 ^ 9 < 2 ^ 51) (Nat.pow_lt_pow_right (by decide) (by decide))
  have hcast : ((10 ^ 9 : Nat) : ℚ) = (10 : ℚ) ^ 9 := by norm_num
  obtain ⟨ex, hex⟩ : ∃ ex : Int, binaryExponent n (10 ^ 9) = ex := exists_eq'
  obtain ⟨hb1, hb2⟩ := binaryExponent_spec n (10 ^ 9) hn0 (by decide) hnb hqb
  rw [hex, hcast] at hb1 hb2
  have hnQ1 : (1000 : ℚ) ≤ n := by exact_mod_cast hn1
  have hnQ2 : (n : ℚ) < 4194304 * 10 ^ 9 := by exact_mod_cast hn2
  have hx1 : (2 : ℚ) ^ (-20 : Int) ≤ (n : ℚ) / 10 ^ 9 := by
    rw [le_div_iff₀ (by norm_num)]
    have : (2 : ℚ) ^ (-20 : Int) * 10 ^ 9 ≤ 1000 := by
      rw [zpow_neg]
      norm_num
    linarith
  have hx2 : (n : ℚ) / 10 ^ 9 < (2 : ℚ) ^ (22 : Int) := by
    rw [div_lt_iff₀ (by norm_num)]
    have : (4194304 : ℚ) * 10 ^ 9 ≤ (2 : ℚ) ^ (22 : Int) * 10 ^ 9 := by norm_num
    linarith
  have hex1 : ex < 22 := zpow_two_lt_of _ _ _ hb1 hx2
  have hex2 : -20 < ex + 1 := zpow_two_lt_of _ _ _ hx1 hb2
  obtain ⟨o, e, ho, ho2, he1, he2, hrq, herr⟩ :=
    roundQuot_value n (10 ^ 9) hn0 (by decide) hnb hqb ex hex (by omega) (by omega)
  rw [hcast] at herr
  have hsplit := two_zpow_split ex 52
  have habs : (2 : ℚ) ^ (ex - 52) / 2 ≤ 1 / 2 ^ 32 := by
    have h1 : (2 : ℚ) ^ (ex - 52) ≤ (2 : ℚ) ^ (-31 : Int) :=
      zpow_le_zpow_right₀ (by norm_num) (by omega)
    have h2 : (2 : ℚ) ^ (-31 : Int) / 2 = 1 / 2 ^ 32 := by
      rw [zpow_neg]
      norm_num
    rw [← h2]
    exact div_le_div_of_nonneg_right h1 (by norm_num)
  refine ⟨o, e, ho, ho2, by omega, by omega, hrq, ?_, le_trans herr habs⟩
  refine le_trans herr ?_
  have h4 : ex - ((52 : Nat) : Int) = ex - 52 := by norm_num
  rw [h4] at hsplit
  rw [hsplit] at hb1
  have hu : (0 : ℚ) < (2 : ℚ) ^ (ex - 52) := by positivity
  rw [div_le_div_iff₀ (by norm_num) (by positivity)]
  have h5 : (2 : ℚ) ^ 53 = 2 ^ 52 * 2 := by norm_num
  rw [h5]
  linarith

theorem roundQuot_one (s : Bool) (x : Nat) (hx0 : 0 < x) (hx : x < 2 ^ 53) :
    roundQuot s x 1 = canon s x 0 := by
  have := roundQuot_exact s x 1 hx0 hx (by decide)
    (by
      rw [Nat.mul_one]
      exact lt_trans hx (Nat.pow_lt_pow_right (by decide) (by decide)))
  rw [Nat.mul_one] at this
  exact this

theorem nat_eq_of_abs_lt_one (a b : Nat) (h : |(a : ℚ) - (b : ℚ)| < 1) : a = b := by
  rw [abs_lt] at h
  have h1 : ((b : ℤ) : ℚ) - 1 < ((a : ℤ) : ℚ) := by push_cast; linarith [h.1]
  have h2 : ((a : ℤ) : ℚ) < ((b : ℤ) : ℚ) + 1 := by push_cast; linarith [h.2]
  have h1' : (b : ℤ) - 1 < (a : ℤ) := by exact_mod_cast h1
  have h2' : (a : ℤ) < (b : ℤ) + 1 := by exact_mod_cast h2
  omega

theorem nat_eq_of_abs_lt (a b : Nat) (h : |(a : ℚ) - (b : ℚ)| < 1 / 2) : a = b :=
  nat_eq_of_abs_lt_one a b (lt_trans h (by norm_num))

/-- The function `Math.round` sends a Number less than one half away from the
integer `n` to `n`. -/
theorem round_near (s : Bool) (o : Nat) (e : Int) (n : Nat) (ho : Odd o) (hn1 : 1 ≤ n)
    (hn2 : n < 2 ^ 53) (h : |(o : ℚ) * (2 : ℚ) ^ e - (n : ℚ)| < 1 / 2) :
    round (.fin s o e) = canon s n 0 := by
  by_cases he : 0 ≤ e
  · obtain ⟨k, hk⟩ : ∃ k : Nat, e = (k : Int) := ⟨e.natAbs, by omega⟩
    subst hk
    rw [zpow_natCast] at h
    have hval : 2 ^ k * o = n := by
      apply nat_eq_of_abs_lt
      push_cast
      rw [mul_comm]
      exact h
    have hk : k ≤ 1100 := by
      have h1 : 2 ^ k ≤ 2 ^ k * o := Nat.le_mul_of_pos_right _ ho.pos
      have := (Nat.pow_lt_pow_iff_right (by decide : 1 < 2)).mp
        (lt_of_le_of_lt (hval ▸ h1) hn2)
      omega
    simp only [round]
    rw [if_pos (Int.ofNat_nonneg k), ← hval, canon_two_pow_mul s o k 0 ho hk, zero_add]
  · obtain ⟨k, hk, hk1⟩ : ∃ k : Nat, e = -(k : Int) ∧ 1 ≤ k := ⟨e.natAbs, by omega, by omega⟩
    subst hk
    obtain ⟨j, rfl⟩ : ∃ j : Nat, k = j + 1 := ⟨k - 1, by omega⟩
    have hH : (0 : ℚ) < 2 ^ j := by positivity
    rw [zpow_neg, zpow_natCast, abs_lt] at h
    have hpow : (2 : ℚ) ^ (j + 1) = 2 * 2 ^ j := by rw [pow_succ]; ring
    rw [hpow] at h
    have h1 : (n : ℚ) * (2 * 2 ^ j) - 2 ^ j < o := by
      have := h.1
      have h3 : (o : ℚ) * (2 * 2 ^ j)⁻¹ = o / (2 * 2 ^ j) := by rw [div_eq_mul_inv]
      rw [h3] at this
      have h4 : (n : ℚ) - 1 / 2 < o / (2 * 2 ^ j) := by linarith
      rw [lt_div_iff₀ (by positivity)] at h4
      linarith
    have h2 : (o : ℚ) < (n : ℚ) * (2 * 2 ^ j) + 2 ^ j := by
      have := h.2
      have h3 : (o : ℚ) * (2 * 2 ^ j)⁻¹ = o / (2 * 2 ^ j) := by rw [div_eq_mul_inv]
      rw [h3] at this
      have h4 : (o : ℚ) / (2 * 2 ^ j) < (n : ℚ) + 1 / 2 := by linarith
      rw [div_lt_iff₀ (by positivity)] at h4
      linarith
    have h1' : n * (2 * 2 ^ j) < o + 2 ^ j := by
      have : ((n * (2 * 2 ^ j) : Nat) : ℚ) < ((o + 2 ^ j : Nat) : ℚ) := by
        push_cast
        linarith
      exact_mod_cast this
    have h2' : o < n * (2 * 2 ^ j) + 2 ^ j := by
      have : ((o : Nat) : ℚ) < ((n * (2 * 2 ^ j) + 2 ^ j : Nat) : ℚ) := by
        push_cast
        linarith
      exact_mod_cast this
    have hHn : 0 < 2 ^ j := Nat.pow_pos (by decide)
    have hge : 2 * 2 ^ j ≤ n * (2 * 2 ^ j) := Nat.le_mul_of_pos_left _ hn1
    have hkk : 2 ^ (j + 1) = 2 * 2 ^ j := by rw [Nat.pow_succ]; ring
    simp only [round]
    rw [if_neg (by omega)]
    simp only [Int.natAbs_neg, Int.natAbs_ofNat, Nat.add_sub_cancel, hkk]
    cases s with
    | false =>
      simp only [Bool.false_eq_true, if_false]
      have hdiv : (o + 2 ^ j) / (2 * 2 ^ j) = n := by
        apply Nat.div_eq_of_lt_le
        · omega
        · have : (n + 1) * (2 * 2 ^ j) = n * (2 * 2 ^ j) + 2 * 2 ^ j := by ring
          rw [this]
          omega
      rw [hdiv]
      exact roundQuot_one false n hn1 hn2
    | true =>
      simp only [if_true]
      rw [if_neg (by omega)]
      have hdiv : (o - 2 ^ j + 2 * 2 ^ j - 1) / (2 * 2 ^ j) = n := by
        apply Nat.div_eq_of_lt_le
        · omega
        · have : (n + 1) * (2 * 2 ^ j) = n * (2 * 2 ^ j) + 2 * 2 ^ j := by ring
          rw [this]
          omega
      rw [hdiv]
      exact roundQuot_one true n hn1 hn2

theorem fracOf_pos (m : Nat) (e : Int) (hm : 0 < m) : 0 < (fracOf m e).1 := by
  unfold fracOf
  split
  · exact hm
  · exact Nat.mul_pos hm (Nat.pow_pos (by decide))

theorem mul_fin_billion (s : Bool) (o : Nat) (e : Int) :
    mul (.fin s o e) billion = roundQuot s ((fracOf o e).1 * 10 ^ 9) (fracOf o e).2 := by
  rw [billion_eq]
  unfold mul
  have hb : fracOf 1953125 9 = (10 ^ 9, 1) := by decide
  simp only [hb, Bool.xor_false, Nat.mul_one]

theorem div_canon_billion (s : Bool) (n : Nat) (hn0 : 0 < n) (hn : n < 2 ^ 53) :
    div (canon s n 0) billion = roundQuot s n (10 ^ 9) := by
  obtain ⟨o, e, h1, h2, _⟩ := canon_val n hn0 hn
  rw [h1 s, billion_eq]
  unfold div
  have hb : fracOf 1953125 9 = (10 ^ 9, 1) := by decide
  simp only [fracOf_natCast, hb, h2, Bool.xor_false, Nat.mul_one, Nat.one_mul]
  rw [if_neg (by decide)]

/-- The statement `res = Math.round(res * 1000000000) / 1000000000` leaves the
Number nearest to `±n / 10^9` as it is, for `1000 ≤ n < 4194304 * 10^9`. -/
theorem round9_nearest (s : Bool) (n : Nat) (hn1 : 1000 ≤ n) (hn2 : n < 4194304 * 10 ^ 9) :
    round9 (roundQuot s n (10 ^ 9)) = roundQuot s n (10 ^ 9) := by
  obtain ⟨o, e, ho, ho2, he1, he2, hrq, _, herr⟩ := nearest_props n hn1 hn2
  have hn53 : n < 2 ^ 53 := lt_trans hn2 (by decide)
  have hnQ : (1000 : ℚ) ≤ n := by exact_mod_cast hn1
  have hnQ2 : (n : ℚ) + 1 ≤ 4194304 * 10 ^ 9 := by exact_mod_cast hn2
  obtain ⟨hQpos, hval⟩ := fracOf_value o e
  have hPpos := fracOf_pos o e ho.pos
  obtain ⟨hPb, hQb⟩ := fracOf_bound o e 54 72
    (lt_of_le_of_lt ho2 (by decide)) (by omega)
  have hPb' : (fracOf o e).1 * 10 ^ 9 < 2 ^ 2 ^ 12 := by
    have h1 : (fracOf o e).1 * 10 ^ 9 < 2 ^ (54 + 72) * 2 ^ 30 :=
      Nat.mul_lt_mul_of_lt_of_le hPb (by decide) (by decide)
    rw [← Nat.pow_add] at h1
    exact lt_trans h1 (Nat.pow_lt_pow_right (by decide) (by decide))
  have hQb' : (fracOf o e).2 < 2 ^ 2 ^ 12 :=
    lt_of_le_of_lt hQb (Nat.pow_lt_pow_right (by decide) (by decide))
  have hX : (((fracOf o e).1 * 10 ^ 9 : Nat) : ℚ) / (fracOf o e).2 =
      (o : ℚ) * (2 : ℚ) ^ e * 10 ^ 9 := by
    rw [← hval]
    push_cast
    ring
  have herrX : |(o : ℚ) * (2 : ℚ) ^ e * 10 ^ 9 - n| ≤ 10 ^ 9 / 2 ^ 32 := by
    have h10 : (0 : ℚ) < 10 ^ 9 := by positivity
    have : (o : ℚ) * (2 : ℚ) ^ e * 10 ^ 9 - n =
        ((o : ℚ) * (2 : ℚ) ^ e - (n : ℚ) / 10 ^ 9) * 10 ^ 9 := by
      field_simp
    rw [this, abs_mul, abs_of_pos h10]
    calc |(o : ℚ) * (2 : ℚ) ^ e - (n : ℚ) / 10 ^ 9| * 10 ^ 9
        ≤ 1 / 2 ^ 32 * 10 ^ 9 := mul_le_mul_of_nonneg_right herr h10.le
      _ = 10 ^ 9 / 2 ^ 32 := by ring
  have hquarter : (10 : ℚ) ^ 9 / 2 ^ 32 < 1 / 4 := by norm_num
  rw [abs_le] at herrX
  obtain ⟨hbe1, hbe2⟩ := binaryExponent_spec _ _ (Nat.mul_pos hPpos (by decide)) hQpos hPb' hQb'
  rw [hX] at hbe1 hbe2
  have hex1 : (9 : Int) ≤ binaryExponent ((fracOf o e).1 * 10 ^ 9) (fracOf o e).2 := by
    have h : (2 : ℚ) ^ (9 : Int) ≤ (o : ℚ) * (2 : ℚ) ^ e * 10 ^ 9 := by
      norm_num
      linarith
    have := zpow_two_lt_of _ _ _ h hbe2
    omega
  have hex2 : binaryExponent ((fracOf o e).1 * 10 ^ 9) (fracOf o e).2 < 52 := by
    have h : (o : ℚ) * (2 : ℚ) ^ e * 10 ^ 9 < (2 : ℚ) ^ (52 : Int) := by
      norm_num
      linarith
    exact zpow_two_lt_of _ _ _ hbe1 h
  obtain ⟨o2, e2, ho2odd, _, _, _, hrq2, herr2⟩ :=
    roundQuot_value _ _ (Nat.mul_pos hPpos (by decide)) hQpos hPb' hQb' _ rfl (by omega) (by omega)
  rw [hX] at herr2
  have hsmall : (2 : ℚ) ^ (binaryExponent ((fracOf o e).1 * 10 ^ 9) (fracOf o e).2 - 52) ≤
      1 / 2 := by
    have : (1 / 2 : ℚ) = (2 : ℚ) ^ (-1 : Int) := by norm_num
    rw [this]
    exact zpow_le_zpow_right₀ (by norm_num) (by omega)
  have hnear : |(o2 : ℚ) * (2 : ℚ) ^ e2 - (n : ℚ)| < 1 / 2 := by
    rw [abs_le] at herr2
    rw [abs_lt]
    constructor <;> linarith [herr2.1, herr2.2]
  unfold round9
  rw [hrq s, mul_fin_billion, hrq2 s, round_near s o2 e2 n ho2odd (by omega) hn53 hnear,
    div_canon_billion s n (by omega) hn53]
  exact hrq s

/-! ### The digit search of Number::toString -/

theorem ten_zpow_split (a b : Int) : (10 : ℚ) ^ (a + b) = (10 : ℚ) ^ a * (10 : ℚ) ^ b :=
  zpow_add₀ (by norm_num) a b

theorem decFrac_value (s : Nat) (t : Int) :
    0 < (decFrac s t).2 ∧ ((decFrac s t).1 : ℚ) / (decFrac s t).2 = (s : ℚ) * (10 : ℚ) ^ t := by
  unfold decFrac
  by_cases ht : t < 0
  · rw [if_pos ht]
    refine ⟨Nat.pow_pos (by decide), ?_⟩
    have h : t = -((t.natAbs : Nat) : Int) := by omega
    simp only
    conv_rhs => rw [h]
    rw [zpow_neg, zpow_natCast]
    push_cast
    rw [div_eq_mul_inv]
  · rw [if_neg ht]
    refine ⟨Nat.one_pos, ?_⟩
    have h : t = ((t.natAbs : Nat) : Int) := by omega
    simp only
    conv_rhs => rw [h]
    rw [zpow_natCast]
    push_cast
    rw [div_one]

theorem decFrac_bound (s : Nat) (t : Int) (A B : Nat) (hs : s < 10 ^ A) (ht : t.natAbs ≤ B) :
    (decFrac s t).1 < 10 ^ (A + B) ∧ (decFrac s t).2 ≤ 10 ^ B := by
  have hpow : 10 ^ t.natAbs ≤ 10 ^ B := Nat.pow_le_pow_right (by decide) ht
  have hA : 10 ^ A ≤ 10 ^ (A + B) := Nat.pow_le_pow_right (by decide) (by omega)
  unfold decFrac
  split
  · exact ⟨lt_of_lt_of_le hs hA, hpow⟩
  · refine ⟨?_, Nat.one_le_pow _ _ (by decide)⟩
    rw [Nat.pow_add]
    exact Nat.mul_lt_mul_of_lt_of_le hs hpow (Nat.pow_pos (by decide))

theorem decFrac_pos (s : Nat) (t : Int) (hs : 0 < s) : 0 < (decFrac s t).1 := by
  unfold decFrac
  split
  · exact hs
  · exact Nat.mul_pos hs (Nat.pow_pos (by decide))

theorem mul_lt_big (a b x y : Nat) (hx : x < 2 ^ a) (hy : y < 2 ^ b) (hab : a + b ≤ 2 ^ 12) :
    x * y < 2 ^ 2 ^ 12 := by
  have h1 : x * y < 2 ^ a * 2 ^ b :=
    Nat.mul_lt_mul_of_lt_of_le hx hy.le (Nat.pow_pos (by decide))
  rw [← Nat.pow_add] at h1
  exact lt_of_lt_of_le h1 (Nat.pow_le_pow_right (by decide) hab)

theorem roundQuot_decFrac_congr (a b : Nat) (t u : Int) (ha : 0 < a)
    (hval : (a : ℚ) * (10 : ℚ) ^ t = (b : ℚ) * (10 : ℚ) ^ u)
    (hab : a < 10 ^ 20) (ht : t.natAbs ≤ 40) (hu : u.natAbs ≤ 40) :
    roundQuot false (decFrac a t).1 (decFrac a t).2 =
      roundQuot false (decFrac b u).1 (decFrac b u).2 := by
  obtain ⟨hq1, hv1⟩ := decFrac_value a t
  obtain ⟨hq2, hv2⟩ := decFrac_value b u
  obtain ⟨hb1, hb2⟩ := decFrac_bound a t 20 40 hab ht
  have hb3 : (decFrac b u).2 ≤ 10 ^ 40 := by
    unfold decFrac
    split
    · exact Nat.pow_le_pow_right (by decide) hu
    · exact Nat.one_le_pow _ _ (by decide)
  have hq1Q : (0 : ℚ) < (decFrac a t).2 := by exact_mod_cast hq1
  have hq2Q : (0 : ℚ) < (decFrac b u).2 := by exact_mod_cast hq2
  have hcross : (decFrac a t).1 * (decFrac b u).2 = (decFrac b u).1 * (decFrac a t).2 := by
    have h : ((decFrac a t).1 : ℚ) / (decFrac a t).2 = ((decFrac b u).1 : ℚ) / (decFrac b u).2 := by
      rw [hv1, hv2, hval]
    rw [div_eq_div_iff hq1Q.ne' hq2Q.ne'] at h
    exact_mod_cast h
  have h100 : (10 : Nat) ^ (20 + 40) * 10 ^ 40 < 2 ^ 2 ^ 12 :=
    mul_lt_big 200 133 _ _ (by decide) (by decide) (by decide)
  refine roundQuot_congr false _ _ _ _ (decFrac_pos a t ha) hq1 hq2 hcross ?_ ?_
  · exact lt_of_le_of_lt (Nat.mul_le_mul hb1.le hb3) h100
  · refine lt_of_le_of_lt (Nat.mul_le_mul hb2 hb3) (lt_of_le_of_lt ?_ h100)
    exact Nat.mul_le_mul (Nat.pow_le_pow_right (by decide) (by decide)) (le_refl _)

theorem scaled_value (p q : Nat) (hq : 0 < q) (t : Int) :
    0 < (if t < 0 then q else q * 10 ^ t.natAbs) ∧
    ((if t < 0 then p * 10 ^ t.natAbs else p : Nat) : ℚ) /
        ((if t < 0 then q else q * 10 ^ t.natAbs : Nat) : ℚ) =
      (p : ℚ) / q * (10 : ℚ) ^ (-t) := by
  have hqQ : (0 : ℚ) < q := by exact_mod_cast hq
  by_cases ht : t < 0
  · simp only [if_pos ht]
    refine ⟨hq, ?_⟩
    have h : -t = ((t.natAbs : Nat) : Int) := by omega
    rw [h, zpow_natCast]
    push_cast
    field_simp
  · simp only [if_neg ht]
    refine ⟨Nat.mul_pos hq (Nat.pow_pos (by decide)), ?_⟩
    have h : -t = -((t.natAbs : Nat) : Int) := by omega
    rw [h, zpow_neg, zpow_natCast]
    push_cast
    field_simp

theorem ten_pow_pred (k : Nat) (hk : 1 ≤ k) : (10 : ℚ) ^ ((k : Int) - 1) = ((10 ^ (k - 1) : Nat) : ℚ) := by
  have h : (k : Int) - 1 = ((k - 1 : Nat) : Int) := by omega
  rw [h, zpow_natCast]
  push_cast
  rfl

/-- The digit search returns, within the digits of any candidate `c` that reads
back as `v`, digits `d` of some length `K` and an exponent `n` that read back
as `v`. -/
theorem shortest_spec (v : JSNumber) (p q : Nat) (hq : 0 < q) (n0 : Int)
    (hn0 : n0.natAbs ≤ 20)
    (hlow : (10 : ℚ) ^ (n0 - 1) ≤ (p : ℚ) / q) (hhigh : (p : ℚ) / q < (10 : ℚ) ^ n0)
    (k1 c : Nat) (hk1 : k1 ≤ 17)
    (hc : |(c : ℚ) - (p : ℚ) / q * (10 : ℚ) ^ ((k1 : Int) - n0)| < 1)
    (hcv : roundQuot false (decFrac c (n0 - k1)).1 (decFrac c (n0 - k1)).2 = v) :
    ∀ (fuel k : Nat), 1 ≤ k → k ≤ k1 → k1 < k + fuel → ∀ (d : Nat) (n : Int),
      shortest v p q n0 fuel k = (d, n) →
      ∃ K : Nat, k ≤ K ∧ K ≤ k1 ∧ 10 ^ (K - 1) ≤ d ∧ d < 10 ^ K ∧ (n = n0 ∨ n = n0 + 1) ∧
        roundQuot false (decFrac d (n - K)).1 (decFrac d (n - K)).2 = v := by
  intro fuel
  induction fuel with
  | zero => intro k _ h1 h2; omega
  | succ fuel ih =>
    intro k hk hkk1 hfuel d n hsh
    obtain ⟨hden, hY⟩ := scaled_value p q hq (n0 - k)
    have hexp : -(n0 - (k : Int)) = (k : Int) - n0 := by ring
    rw [hexp] at hY
    have hfl1 := @Nat.cast_div_le ℚ _ (if n0 - (k : Int) < 0 then p * 10 ^ (n0 - (k : Int)).natAbs else p)
      (if n0 - (k : Int) < 0 then q else q * 10 ^ (n0 - (k : Int)).natAbs)
    have hfl2 := Nat.lt_floor_add_one
      (((if n0 - (k : Int) < 0 then p * 10 ^ (n0 - (k : Int)).natAbs else p : Nat) : ℚ) /
        ((if n0 - (k : Int) < 0 then q else q * 10 ^ (n0 - (k : Int)).natAbs : Nat) : ℚ))
    rw [Nat.floor_div_eq_div] at hfl2
    rw [hY] at hfl1 hfl2
    have hpos10 : (0 : ℚ) < (10 : ℚ) ^ ((k : Int) - n0) := zpow_pos (by norm_num) _
    have hYlow : ((10 ^ (k - 1) : Nat) : ℚ) ≤ (p : ℚ) / q * (10 : ℚ) ^ ((k : Int) - n0) := by
      rw [← ten_pow_pred k hk]
      have : (10 : ℚ) ^ ((k : Int) - 1) = (10 : ℚ) ^ (n0 - 1) * (10 : ℚ) ^ ((k : Int) - n0) := by
        rw [← ten_zpow_split]
        congr 1
        ring
      rw [this]
      exact mul_le_mul_of_nonneg_right hlow hpos10.le
    have hYhigh : (p : ℚ) / q * (10 : ℚ) ^ ((k : Int) - n0) < ((10 ^ k : Nat) : ℚ) := by
      have : ((10 ^ k : Nat) : ℚ) = (10 : ℚ) ^ n0 * (10 : ℚ) ^ ((k : Int) - n0) := by
        rw [← ten_zpow_split]
        have : n0 + ((k : Int) - n0) = (k : Int) := by ring
        rw [this, zpow_natCast]
        push_cast
        rfl
      rw [this]
      exact mul_lt_mul_of_pos_right hhigh hpos10
    generalize hlo : (if n0 - (k : Int) < 0 then p * 10 ^ (n0 - (k : Int)).natAbs else p) /
      (if n0 - (k : Int) < 0 then q else q * 10 ^ (n0 - (k : Int)).natAbs) = lo at hfl1 hfl2
    have hloL : 10 ^ (k - 1) ≤ lo := by
      have : ((10 ^ (k - 1) : Nat) : ℚ) < ((lo + 1 : Nat) : ℚ) := by
        push_cast
        push_cast at hYlow
        linarith
      have := Nat.cast_lt.mp this
      omega
    have hloH : lo < 10 ^ k := by
      have : ((lo : Nat) : ℚ) < ((10 ^ k : Nat) : ℚ) := lt_of_le_of_lt hfl1 hYhigh
      exact Nat.cast_lt.mp this
    have hk20 : (10 : Nat) ^ k < 10 ^ 20 := Nat.pow_lt_pow_right (by decide) (by omega)
    have goodLo : roundQuot false (decFrac lo (n0 - k)).1 (decFrac lo (n0 - k)).2 = v →
        ∀ (d : Nat) (n : Int), (lo, n0) = (d, n) →
        ∃ K : Nat, k ≤ K ∧ K ≤ k1 ∧ 10 ^ (K - 1) ≤ d ∧ d < 10 ^ K ∧ (n = n0 ∨ n = n0 + 1) ∧
          roundQuot false (decFrac d (n - K)).1 (decFrac d (n - K)).2 = v := by
      intro hA d n h
      obtain ⟨rfl, rfl⟩ := Prod.mk.inj h
      exact ⟨k, le_refl k, hkk1, hloL, hloH, Or.inl rfl, hA⟩
    have goodHi : roundQuot false (decFrac (lo + 1) (n0 - k)).1 (decFrac (lo + 1) (n0 - k)).2 = v →
        ∀ (d : Nat) (n : Int),
        (if lo + 1 = 10 ^ k then (10 ^ (k - 1), n0 + 1) else (lo + 1, n0)) = (d, n) →
        ∃ K : Nat, k ≤ K ∧ K ≤ k1 ∧ 10 ^ (K - 1) ≤ d ∧ d < 10 ^ K ∧ (n = n0 ∨ n = n0 + 1) ∧
          roundQuot false (decFrac d (n - K)).1 (decFrac d (n - K)).2 = v := by
      intro hB d n h
      by_cases hten : lo + 1 = 10 ^ k
      · rw [if_pos hten] at h
        obtain ⟨rfl, rfl⟩ := Prod.mk.inj h
        refine ⟨k, le_refl k, hkk1, le_refl _, ?_, Or.inr rfl, ?_⟩
        · exact Nat.pow_lt_pow_right (by decide) (by omega)
        · rw [← hB]
          apply roundQuot_decFrac_congr _ _ _ _ (Nat.pow_pos (by decide))
          · rw [hten, ← ten_pow_pred k hk]
            push_cast
            rw [← zpow_natCast, ← ten_zpow_split, ← ten_zpow_split]
            congr 1
            ring
          · exact lt_of_le_of_lt (Nat.pow_le_pow_right (by decide) (Nat.sub_le k 1)) hk20
          · omega
          · omega
      · rw [if_neg hten] at h
        obtain ⟨rfl, rfl⟩ := Prod.mk.inj h
        exact ⟨k, le_refl k, hkk1, by omega, by omega, Or.inl rfl, hB⟩
    have recur : ¬ roundQuot false (decFrac lo (n0 - k)).1 (decFrac lo (n0 - k)).2 = v →
        ¬ roundQuot false (decFrac (lo + 1) (n0 - k)).1 (decFrac (lo + 1) (n0 - k)).2 = v →
        shortest v p q n0 fuel (k + 1) = (d, n) →
        ∃ K : Nat, k ≤ K ∧ K ≤ k1 ∧ 10 ^ (K - 1) ≤ d ∧ d < 10 ^ K ∧ (n = n0 ∨ n = n0 + 1) ∧
          roundQuot false (decFrac d (n - K)).1 (decFrac d (n - K)).2 = v := by
      intro hA hB hrec
      have hne : k ≠ k1 := by
        intro hkeq
        subst hkeq
        rw [abs_lt] at hc
        have h1 : ((lo : Nat) : ℚ) < ((c + 1 : Nat) : ℚ) := by
          push_cast
          linarith [hc.1]
        have h2 : ((c : Nat) : ℚ) < ((lo + 2 : Nat) : ℚ) := by
          push_cast
          linarith [hc.2]
        have h1' := Nat.cast_lt.mp h1
        have h2' := Nat.cast_lt.mp h2
        have hcases : c = lo ∨ c = lo + 1 := by omega
        rcases hcases with h | h
        · rw [h] at hcv
          exact hA hcv
        · rw [h] at hcv
          exact hB hcv
      obtain ⟨K, hK1, hK2, hrest⟩ := ih (k + 1) (by omega) (by omega) (by omega) d n hrec
      exact ⟨K, by omega, hK2, hrest⟩
    rw [shortest] at hsh
    simp only [hlo, Bool.and_eq_true, decide_eq_true_eq] at hsh
    by_cases hA : roundQuot false (decFrac lo (n0 - k)).1 (decFrac lo (n0 - k)).2 = v
    · by_cases hB : roundQuot false (decFrac (lo + 1) (n0 - k)).1 (decFrac (lo + 1) (n0 - k)).2 = v
      · simp only [hloL, hA, hB, and_self, if_true] at hsh
        split_ifs at hsh
        all_goals first
          | exact goodLo hA d n hsh
          | exact goodHi hB d n (by rw [if_pos ‹lo + 1 = 10 ^ k›]; exact hsh)
          | exact goodHi hB d n (by rw [if_neg ‹¬ lo + 1 = 10 ^ k›]; exact hsh)
      · simp only [hloL, hA, hB, and_false, and_self, if_false, if_true] at hsh
        exact goodLo hA d n hsh
    · by_cases hB : roundQuot false (decFrac (lo + 1) (n0 - k)).1 (decFrac (lo + 1) (n0 - k)).2 = v
      · simp only [hA, hB, and_false, false_and, if_false, if_true] at hsh
        exact goodHi hB d n hsh
      · simp only [hA, hB, and_false, false_and, if_false] at hsh
        exact recur hA hB hsh

theorem leadingZeros_spec (p q : Nat) : ∀ (fuel k : Nat), p * 10 ^ k < q →
    q ≤ p * 10 ^ (k + fuel) →
    p * 10 ^ leadingZeros p q fuel k < q ∧ q ≤ p * 10 ^ (leadingZeros p q fuel k + 1) := by
  intro fuel
  induction fuel with
  | zero =>
    intro k h1 h2
    rw [Nat.add_zero] at h2
    omega
  | succ fuel ih =>
    intro k h1 h2
    rw [leadingZeros]
    by_cases h : q ≤ p * 10 ^ (k + 1)
    · rw [if_pos h]
      exact ⟨h1, h⟩
    · rw [if_neg h]
      apply ih (k + 1) (by omega)
      have : k + 1 + fuel = k + (fuel + 1) := by omega
      rw [this]
      exact h2

theorem ten_zpow_unique (x : ℚ) (a b : Int) (h1 : (10 : ℚ) ^ a ≤ x) (h2 : x < (10 : ℚ) ^ b) :
    a < b := by
  have := lt_of_le_of_lt h1 h2
  rwa [zpow_lt_zpow_iff_right₀ (by norm_num : (1 : ℚ) < 10)] at this

/-- The decimal exponent brackets the quotient: `10^(n - 1) ≤ p / q < 10^n`. -/
theorem decExponent_spec (p q : Nat) (hq : 0 < q) (hfuel : q ≤ p * 10 ^ 400) :
    (10 : ℚ) ^ (decExponent p q - 1) ≤ (p : ℚ) / q ∧
      (p : ℚ) / q < (10 : ℚ) ^ (decExponent p q) := by
  have hqQ : (0 : ℚ) < q := by exact_mod_cast hq
  unfold decExponent
  by_cases h : q ≤ p
  · rw [if_pos h]
    have hpos : 0 < p / q := Nat.div_pos h hq
    rw [toDigits_length _ hpos]
    have h1 : 10 ^ Nat.log 10 (p / q) ≤ p / q :=
      Nat.pow_log_le_self 10 (Nat.pos_iff_ne_zero.mp hpos)
    have h2 : p / q < 10 ^ (Nat.log 10 (p / q) + 1) := Nat.lt_pow_succ_log_self (by decide) _
    generalize Nat.log 10 (p / q) = L at h1 h2
    constructor
    · have : ((L + 1 : Nat) : Int) - 1 = ((L : Nat) : Int) := by omega
      rw [this, zpow_natCast, le_div_iff₀ hqQ]
      have h3 : 10 ^ L * q ≤ p := (Nat.le_div_iff_mul_le hq).mp h1
      exact_mod_cast h3
    · rw [zpow_natCast, div_lt_iff₀ hqQ]
      have h3 : p < 10 ^ (L + 1) * q := (Nat.div_lt_iff_lt_mul hq).mp h2
      exact_mod_cast h3
  · rw [if_neg h]
    obtain ⟨h1, h2⟩ := leadingZeros_spec p q 400 0 (by simpa using h)
      (by rw [Nat.zero_add]; exact hfuel)
    generalize leadingZeros p q 400 0 = z at h1 h2
    have hz : (0 : ℚ) < (10 : ℚ) ^ z := by positivity
    have hz1 : (0 : ℚ) < (10 : ℚ) ^ (z + 1) := by positivity
    constructor
    · have : -((z : Nat) : Int) - 1 = -(((z + 1 : Nat)) : Int) := by omega
      rw [this, zpow_neg, zpow_natCast, le_div_iff₀ hqQ, inv_mul_le_iff₀ hz1]
      have : ((q : Nat) : ℚ) ≤ ((p * 10 ^ (z + 1) : Nat) : ℚ) := Nat.cast_le.mpr h2
      push_cast at this
      linarith
    · rw [zpow_neg, zpow_natCast, div_lt_iff₀ hqQ, lt_inv_mul_iff₀ hz]
      have : ((p * 10 ^ z : Nat) : ℚ) < ((q : Nat) : ℚ) := Nat.cast_lt.mpr h1
      push_cast at this
      linarith

/-- The digits that Number::toString finds for the Number nearest to
`n / 10^9`: at most 16 of them, at most nine decimals, plain notation. -/
theorem nearest_shortest (n : Nat) (hn1 : 1001 ≤ n) (hn2 : n < 4194304 * 10 ^ 9) (o : Nat) (e : Int)
    (ho : 0 < o) (ho2 : o ≤ 2 ^ 53) (he1 : -72 ≤ e) (he2 : e ≤ 22)
    (hrq : roundQuot false n (10 ^ 9) = .fin false o e)
    (herr : |(o : ℚ) * (2 : ℚ) ^ e - (n : ℚ) / 10 ^ 9| ≤ (n : ℚ) / 10 ^ 9 / 2 ^ 53)
    (d : Nat) (m : Int)
    (hsh : shortest (.fin false o e) (fracOf o e).1 (fracOf o e).2
      (decExponent (fracOf o e).1 (fracOf o e).2) 17 1 = (d, m)) :
    ∃ K : Nat, 1 ≤ K ∧ (K : Int) ≤ m + 9 ∧ K ≤ 16 ∧ 10 ^ (K - 1) ≤ d ∧ d < 10 ^ K ∧
      -5 ≤ m ∧ m ≤ 8 ∧
      roundQuot false (decFrac d (m - K)).1 (decFrac d (m - K)).2 = .fin false o e := by
  have hnQ : (1001 : ℚ) ≤ n := by exact_mod_cast hn1
  have hnQ2 : (n : ℚ) + 1 ≤ 4194304 * 10 ^ 9 := by exact_mod_cast hn2
  obtain ⟨hQpos, hval⟩ := fracOf_value o e
  have hPpos := fracOf_pos o e ho
  obtain ⟨hPb, hQb⟩ := fracOf_bound o e 54 72 (lt_of_le_of_lt ho2 (by decide)) (by omega)
  rw [abs_le] at herr
  have h53 : (0 : ℚ) < 2 ^ 53 := by positivity
  have hsmall : (n : ℚ) / 10 ^ 9 / 2 ^ 53 ≤ (n : ℚ) / 10 ^ 9 / 1000000 := by
    apply div_le_div_of_nonneg_left (by positivity) (by norm_num) (by norm_num)
  have hWlo : (10 : ℚ) ^ (-6 : Int) < (o : ℚ) * (2 : ℚ) ^ e := by
    have h1 : (10 : ℚ) ^ (-6 : Int) = 1000 / 10 ^ 9 := by norm_num
    have h3 : (1001 : ℚ) / 10 ^ 9 ≤ (n : ℚ) / 10 ^ 9 :=
      div_le_div_of_nonneg_right hnQ (by positivity)
    have h4 : (n : ℚ) / 10 ^ 9 * (999999 / 1000000) ≤ (o : ℚ) * (2 : ℚ) ^ e := by linarith
    have h5 : (1001 : ℚ) / 10 ^ 9 * (999999 / 1000000) ≤ (n : ℚ) / 10 ^ 9 * (999999 / 1000000) :=
      mul_le_mul_of_nonneg_right h3 (by norm_num)
    rw [h1]
    refine lt_of_lt_of_le ?_ (le_trans h5 h4)
    norm_num
  have hWhi : (o : ℚ) * (2 : ℚ) ^ e < (10 : ℚ) ^ (7 : Int) := by
    have h3 : (n : ℚ) / 10 ^ 9 ≤ (4194304 * 10 ^ 9 : ℚ) / 10 ^ 9 :=
      div_le_div_of_nonneg_right (by linarith) (by positivity)
    have h4 : (o : ℚ) * (2 : ℚ) ^ e ≤ (n : ℚ) / 10 ^ 9 * (1000001 / 1000000) := by linarith
    have h5 : (n : ℚ) / 10 ^ 9 * (1000001 / 1000000) ≤
        (4194304 * 10 ^ 9 : ℚ) / 10 ^ 9 * (1000001 / 1000000) :=
      mul_le_mul_of_nonneg_right h3 (by norm_num)
    refine lt_of_le_of_lt (le_trans h4 h5) ?_
    norm_num
  have hfuel : (fracOf o e).2 ≤ (fracOf o e).1 * 10 ^ 400 := by
    have h1 : ∀ b : Nat, 72 ≤ b → (fracOf o e).2 ≤ 10 ^ b := fun b hb =>
      le_trans hQb (le_trans (Nat.pow_le_pow_left (by decide) 72)
        (Nat.pow_le_pow_right (by decide) hb))
    exact le_trans (h1 400 (by decide)) (Nat.le_mul_of_pos_left _ hPpos)
  obtain ⟨hd1, hd2⟩ := decExponent_spec _ _ hQpos hfuel
  rw [hval] at hd1 hd2
  have hn0a := ten_zpow_unique _ _ _ hWlo.le hd2
  have hn0b := ten_zpow_unique _ _ _ hd1 hWhi
  clear hfuel
  obtain ⟨n0, hn0⟩ : ∃ n0 : Int, decExponent (fracOf o e).1 (fracOf o e).2 = n0 := exists_eq'
  rw [hn0] at hsh hd1 hd2 hn0a hn0b
  obtain ⟨k1, hk1⟩ : ∃ k1 : Nat, (k1 : Int) = n0 + 9 := ⟨(n0 + 9).toNat, by omega⟩
  have hexp : (k1 : Int) - n0 = ((9 : Nat) : Int) := by omega
  have hc : |(n : ℚ) - ((fracOf o e).1 : ℚ) / (fracOf o e).2 * (10 : ℚ) ^ ((k1 : Int) - n0)| < 1 := by
    rw [hval, hexp, zpow_natCast, abs_lt]
    have h10 : (0 : ℚ) < 10 ^ 9 := by positivity
    have hlt : (n : ℚ) / 10 ^ 9 / 2 ^ 53 < 1 / 10 ^ 9 := by
      rw [div_div, div_lt_div_iff₀ (by positivity) (by positivity)]
      have : (4194304 * 10 ^ 9 : ℚ) ≤ (2 : ℚ) ^ 53 := by norm_num
      nlinarith
    have e1 : (n : ℚ) / 10 ^ 9 * 10 ^ 9 = n := by field_simp
    have e2 : (1 : ℚ) / 10 ^ 9 * 10 ^ 9 = 1 := by field_simp
    constructor
    · have : (o : ℚ) * (2 : ℚ) ^ e * 10 ^ 9 < ((n : ℚ) / 10 ^ 9 + 1 / 10 ^ 9) * 10 ^ 9 :=
        mul_lt_mul_of_pos_right (by linarith) h10
      rw [add_mul, e1, e2] at this
      linarith
    · have : ((n : ℚ) / 10 ^ 9 - 1 / 10 ^ 9) * 10 ^ 9 < (o : ℚ) * (2 : ℚ) ^ e * 10 ^ 9 :=
        mul_lt_mul_of_pos_right (by linarith) h10
      rw [sub_mul, e1, e2] at this
      linarith
  have hcv : roundQuot false (decFrac n (n0 - k1)).1 (decFrac n (n0 - k1)).2 = .fin false o e := by
    have : n0 - (k1 : Int) = -9 := by omega
    rw [this]
    exact hrq
  obtain ⟨K, hK1, hK2, hK3, hK4, hK5, hK6⟩ :=
    shortest_spec (.fin false o e) _ _ hQpos n0 (by omega) (by rw [hval]; exact hd1)
      (by rw [hval]; exact hd2) k1 n (by omega) hc hcv 17 1 (le_refl 1) (by omega) (by omega)
      d m hsh
  refine ⟨K, hK1, by omega, by omega, hK3, hK4, by omega, by omega, hK6⟩

/-! ### Integers with an exact product -/

theorem roundQuot_two_pow_mul (s : Bool) (o k : Nat) (ho : Odd o) (ho53 : o < 2 ^ 53)
    (hk : k ≤ 200) : roundQuot s (2 ^ k * o) 1 = .fin s o k := by
  have ho0 : 0 < o := ho.pos
  have hp0 : 0 < 2 ^ k * o := Nat.mul_pos (Nat.pow_pos (by decide)) ho0
  have hpb : 2 ^ k * o < 2 ^ 2 ^ 12 := mul_lt_big (k + 1) 53 _ _
    (Nat.pow_lt_pow_right (by decide) (by omega)) ho53
    (le_trans (by omega : k + 1 + 53 ≤ 254) (by decide))
  have h1b : 1 < 2 ^ 2 ^ 12 := Nat.one_lt_pow (by decide) (by decide)
  have hob : o < 2 ^ 2 ^ 12 := lt_trans ho53 (Nat.pow_lt_pow_right (by decide) (by decide))
  obtain ⟨hL1, hL2⟩ := floorLog2_spec o ho0 hob
  have hL := floorLog2_lt_53 o ho0 ho53
  generalize floorLog2 o = L at hL1 hL2 hL
  obtain ⟨hb1, hb2⟩ := binaryExponent_spec (2 ^ k * o) 1 hp0 Nat.one_pos hpb h1b
  have hpQ : (((2 ^ k * o : Nat) : ℚ)) / ((1 : Nat) : ℚ) = (o : ℚ) * (2 : ℚ) ^ (k : Int) := by
    rw [zpow_natCast]
    push_cast
    ring
  rw [hpQ] at hb1 hb2
  have hk0 : (0 : ℚ) < (2 : ℚ) ^ (k : Int) := zpow_pos (by norm_num) _
  have hc1 : (2 : ℚ) ^ ((L : Int) + k) ≤ (o : ℚ) * (2 : ℚ) ^ (k : Int) := by
    rw [zpow_add₀ (by norm_num : (2 : ℚ) ≠ 0), zpow_natCast 2 L]
    exact mul_le_mul_of_nonneg_right (by exact_mod_cast hL1) hk0.le
  have hc2 : (o : ℚ) * (2 : ℚ) ^ (k : Int) < (2 : ℚ) ^ ((L : Int) + k + 1) := by
    have : (L : Int) + k + 1 = ((L + 1 : Nat) : Int) + k := by push_cast; ring
    rw [this, zpow_add₀ (by norm_num : (2 : ℚ) ≠ 0), zpow_natCast 2 (L + 1)]
    exact mul_lt_mul_of_pos_right (by exact_mod_cast hL2) hk0
  have hex : binaryExponent (2 ^ k * o) 1 = (L : Int) + k :=
    two_zpow_unique _ _ _ hb1 hb2 hc1 hc2
  obtain ⟨m, _, _, hrq, herr⟩ :=
    roundQuot_spec (2 ^ k * o) 1 hp0 Nat.one_pos hpb h1b _ hex (by omega) (by omega)
  rw [hpQ] at herr
  clear hpb h1b hob
  have hu : (0 : ℚ) < (2 : ℚ) ^ ((L : Int) + k - 52) := zpow_pos (by norm_num) _
  have hA : (o : ℚ) * (2 : ℚ) ^ (k : Int) =
      ((2 ^ (52 - L) * o : Nat) : ℚ) * (2 : ℚ) ^ ((L : Int) + k - 52) := by
    push_cast
    rw [← zpow_natCast 2 (52 - L)]
    have : (2 : ℚ) ^ (((52 - L : Nat)) : Int) * (o : ℚ) * (2 : ℚ) ^ ((L : Int) + k - 52) =
        (o : ℚ) * ((2 : ℚ) ^ (((52 - L : Nat)) : Int) * (2 : ℚ) ^ ((L : Int) + k - 52)) := by ring
    have he : (((52 - L : Nat)) : Int) + ((L : Int) + k - 52) = (k : Int) := by omega
    rw [this, ← zpow_add₀ (by norm_num : (2 : ℚ) ≠ 0), he]
  have hm : m = 2 ^ (52 - L) * o := by
    apply nat_eq_of_abs_lt_one
    rw [hA, ← sub_mul, abs_mul, abs_of_pos hu] at herr
    have h2 : |(m : ℚ) - ((2 ^ (52 - L) * o : Nat) : ℚ)| ≤ 1 / 2 := by
      by_contra hcon
      push_neg at hcon
      have := mul_lt_mul_of_pos_right hcon hu
      linarith
    linarith
  have he : (L : Int) + k - 52 + (((52 - L : Nat)) : Int) = (k : Int) := by omega
  rw [hrq s, hm, canon_two_pow_mul s o (52 - L) _ ho (by omega), he]

/-- The statement `res = Math.round(res * 1000000000) / 1000000000` leaves an
integer `z` with `z * 5^9 < 2^53` as it is. -/
theorem round9_integer (s : Bool) (z : Nat) (hz0 : 0 < z) (hz : z * 5 ^ 9 < 2 ^ 53) :
    round9 (canon s z 0) = canon s z 0 := by
  have hz53 : z < 2 ^ 53 := lt_of_le_of_lt (Nat.le_mul_of_pos_right z (by decide)) hz
  have hex := roundQuot_exact s z (10 ^ 9) hz0 hz53 (by decide)
    (mul_lt_big 53 30 _ _ hz53 (by decide) (by decide))
  obtain ⟨a, o, ho, rfl⟩ := Nat.exists_eq_two_pow_mul_odd (Nat.pos_iff_ne_zero.mp hz0)
  have ha : a < 53 := by
    have h1 : 2 ^ a ≤ 2 ^ a * o := Nat.le_mul_of_pos_right _ ho.pos
    exact (Nat.pow_lt_pow_iff_right (by decide : 1 < 2)).mp (lt_of_le_of_lt h1 hz53)
  have hcan : canon s (2 ^ a * o) 0 = .fin s o (a : Int) := by
    rw [canon_two_pow_mul s o a _ ho (by omega), zero_add]
  have hodd : Odd (o * 5 ^ 9) := ho.mul (by decide)
  have ho53 : o * 5 ^ 9 < 2 ^ 53 :=
    lt_of_le_of_lt (Nat.mul_le_mul_right _ (Nat.le_mul_of_pos_left o (Nat.pow_pos (by decide)))) hz
  have hb : fracOf 1953125 9 = (10 ^ 9, 1) := by decide
  have hmul : o * 2 ^ a * 10 ^ 9 = 2 ^ (a + 9) * (o * 5 ^ 9) := by
    rw [Nat.pow_add]
    have : (10 : Nat) ^ 9 = 2 ^ 9 * 5 ^ 9 := by decide
    rw [this]
    ring
  have hdiv : o * 5 ^ 9 * 2 ^ (a + 9) * 1 = 2 ^ a * o * 10 ^ 9 := by
    rw [Nat.mul_one, Nat.mul_comm (o * 5 ^ 9), ← hmul]
    ring
  unfold round9
  rw [hcan, mul_fin_billion, fracOf_natCast, hmul,
    roundQuot_two_pow_mul s (o * 5 ^ 9) (a + 9) hodd ho53 (by omega)]
  simp only [round]
  rw [if_pos (Int.ofNat_nonneg _), billion_eq]
  unfold div
  simp only [fracOf_natCast, hb, Bool.xor_false, Nat.one_mul]
  rw [if_neg (by decide), hdiv, hex, hcan]

theorem roundQuot_billion_mul (s : Bool) (z : Nat) (hz0 : 0 < z) (hz : z < 2 ^ 53) :
    roundQuot s (z * 10 ^ 9) (10 ^ 9) = canon s z 0 :=
  roundQuot_exact s z (10 ^ 9) hz0 hz (by decide) (mul_lt_big 53 30 _ _ hz (by decide) (by decide))

end JSNumber

theorem digit_not_special (d : Char) (h : isDigit d = true) :
    d ∉ ['+', '-', '*', '/', '(', ')', '.', '×', '÷', '−', 'π', 'e', '√', '^', '%', 'M'] ∧
    isWordChar d = true := by
  obtain ⟨k, rfl⟩ := isDigit_cases d h
  revert k
  decide

/-! ## Reading a result text back -/

theorem numeric_not_special (d : Char) (h : isDigit d = true ∨ d = '-' ∨ d = '.') :
    d ∉ ['(', ')', '×', '÷', '−', 'π', 'e', '√', '^', '%'] ∧ (¬ isDigit d = true → isDigit d = false) := by
  rcases h with h | h | h
  · have h1 := (digit_not_special d h).1
    simp only [List.mem_cons, List.mem_singleton, List.not_mem_nil, or_false, not_or] at h1 ⊢
    refine ⟨by tauto, ?_⟩
    intro hd
    exact absurd h hd
  · subst h
    decide
  · subst h
    decide

theorem replaceAll_numeric (m : Text → Bool) (r : Char → Text)
    (hm : ∀ (c : Char) (rest : Text), (isDigit c = true ∨ c = '-' ∨ c = '.') →
      (∀ d ∈ rest, isDigit d = true ∨ d = '-' ∨ d = '.') → m (c :: rest) = false) :
    ∀ s : Text, (∀ c ∈ s, isDigit c = true ∨ c = '-' ∨ c = '.') → replaceAll m r s = s := by
  intro s
  induction s with
  | nil => intro _; rfl
  | cons c rest ih =>
    intro hs
    have hc := hs c (List.mem_cons_self c rest)
    have hrest : ∀ d ∈ rest, isDigit d = true ∨ d = '-' ∨ d = '.' :=
      fun d hd => hs d (List.mem_cons_of_mem c hd)
    rw [replaceAll, hm c rest hc hrest, ih hrest]
    simp

theorem replaceChar_numeric (ch : Char) (sub : Text)
    (hch : ch ∈ ['×', '÷', '−', 'π', 'e', '√', '^', '%']) (s : Text)
    (hs : ∀ c ∈ s, isDigit c = true ∨ c = '-' ∨ c = '.') : replaceChar ch sub s = s := by
  unfold replaceChar
  apply replaceAll_numeric _ _ _ s hs
  intro c rest hc _
  have h := (numeric_not_special c hc).1
  simp only [List.head?_cons, beq_eq_false_iff_ne, ne_eq, Option.some.injEq]
  intro heq
  subst heq
  apply h
  simp only [List.mem_cons, List.mem_singleton, List.not_mem_nil, or_false] at hch ⊢
  tauto

theorem startsOperand_numeric (rest : Text)
    (hrest : ∀ d ∈ rest, isDigit d = true ∨ d = '-' ∨ d = '.') :
    startsOperand rest = false := by
  cases rest with
  | nil => rfl
  | cons d rest' =>
    have h := (numeric_not_special d (hrest d (List.mem_cons_self d rest'))).1
    simp only [List.mem_cons, List.mem_singleton, List.not_mem_nil, or_false, not_or] at h
    simp [startsOperand, h]

/-- The passes of `compute` leave a text of digits, `-` and `.` as it is. -/
theorem normalize_numeric (s : Text) (hs : ∀ c ∈ s, isDigit c = true ∨ c = '-' ∨ c = '.') :
    normalize s = s := by
  have h1 : implicitMulDigit s = s := by
    unfold implicitMulDigit
    apply replaceAll_numeric _ _ _ s hs
    intro c rest _ hrest
    simp [startsOperand_numeric rest hrest]
  have h2 : implicitMulParen s = s := by
    unfold implicitMulParen
    apply replaceAll_numeric _ _ _ s hs
    intro c rest hc hrest
    simp [startsOperand_numeric rest hrest]
  unfold normalize
  simp only [h1, h2]
  rw [replaceChar_numeric '×' _ (by decide) s hs, replaceChar_numeric '÷' _ (by decide) s hs,
    replaceChar_numeric '−' _ (by decide) s hs, replaceChar_numeric 'π' _ (by decide) s hs,
    replaceChar_numeric 'e' _ (by decide) s hs, replaceChar_numeric '√' _ (by decide) s hs,
    replaceChar_numeric '^' _ (by decide) s hs, replaceChar_numeric '%' _ (by decide) s hs]

/-- A decimal literal with a fraction is one token. -/
theorem lex_fraction (c : Char) (ip fp : Text) (v : JSNumber)
    (hip : ∀ d ∈ c :: ip, isDigit d = true) (hfp : ∀ d ∈ fp, isDigit d = true)
    (hv : literalValue (c :: ip) fp = some v) :
    lex ((c :: ip ++ '.' :: fp).length + 1) (c :: ip ++ '.' :: fp) = some [Token.num v] := by
  have hc := hip c (List.mem_cons_self c ip)
  have hsp := (digit_not_special c hc).1
  simp only [List.mem_cons, List.mem_singleton, List.not_mem_nil, or_false, not_or] at hsp
  have hdot : isDigit '.' = false := by decide
  have htake : (c :: (ip ++ '.' :: fp)).takeWhile isDigit = c :: ip := by
    rw [← List.cons_append, List.takeWhile_append_of_pos hip, List.takeWhile_cons, hdot]
    simp
  have hdrop : (c :: (ip ++ '.' :: fp)).dropWhile isDigit = '.' :: fp := by
    rw [← List.cons_append, List.dropWhile_append_of_pos hip, List.dropWhile_cons, hdot]
    simp
  have htake2 : fp.takeWhile isDigit = fp := List.takeWhile_eq_self_iff.mpr hfp
  have hdrop2 : fp.dropWhile isDigit = [] := List.dropWhile_eq_nil_iff.mpr hfp
  rw [List.cons_append, lex]
  simp only [hsp.1, hsp.2.1, hsp.2.2.1, hsp.2.2.2.1, hsp.2.2.2.2.1, hsp.2.2.2.2.2.1, if_false,
    hc, true_or, if_true, htake, hdrop, List.head?_cons, List.tail_cons, htake2, hdrop2,
    List.head?_nil, hv]
  simp [lex, hv]

theorem runFunction_signed (s : Bool) (c : Char) (rest : Text) (v : JSNumber)
    (hc : isDigit c = true)
    (hlex : lex ((c :: rest).length + 1) (c :: rest) = some [Token.num v]) :
    runFunction ((if s then ['-'] else []) ++ c :: rest) =
      .ok (if s then JSNumber.neg v else v) := by
  have hsp := (digit_not_special c hc).1
  simp only [List.mem_cons, List.mem_singleton, List.not_mem_nil, or_false, not_or] at hsp
  cases s with
  | false =>
    simp only [Bool.false_eq_true, if_false, List.nil_append]
    unfold runFunction
    rw [hlex]
    simp [parseExpr, parseTerm, parseUnary, termLoop, exprLoop]
  | true =>
    simp only [if_true, List.singleton_append]
    have hne : ¬ ('-' : Char) = '+' := by decide
    have hl : lex (('-' :: c :: rest).length + 1) ('-' :: c :: rest) =
        some [Token.minus, Token.num v] := by
      rw [lex, if_neg hne, if_pos rfl]
      simp only [List.head?_cons, Option.some.injEq, hsp.2.1, if_false]
      rw [show ('-' :: c :: rest).length = (c :: rest).length + 1 from rfl, hlex]
      rfl
    unfold runFunction
    rw [hl]
    simp [parseExpr, parseTerm, parseUnary, termLoop, exprLoop]

theorem lex_digits (c : Char) (rest : Text) (v : JSNumber)
    (hs : ∀ d ∈ c :: rest, isDigit d = true)
    (hv : literalValue (c :: rest) [] = some v) :
    lex ((c :: rest).length + 1) (c :: rest) = some [Token.num v] := by
  have hc := hs c (List.mem_cons_self c rest)
  have hsp := (digit_not_special c hc).1
  simp only [List.mem_cons, List.mem_singleton, List.not_mem_nil, or_false, not_or] at hsp
  have htake : (c :: rest).takeWhile isDigit = c :: rest :=
    List.takeWhile_eq_self_iff.mpr hs
  have hdrop : (c :: rest).dropWhile isDigit = [] :=
    List.dropWhile_eq_nil_iff.mpr hs
  rw [lex]
  simp only [hsp.1, hsp.2.1, hsp.2.2.1, hsp.2.2.2.1, hsp.2.2.2.2.1, hsp.2.2.2.2.2.1, if_false,
    hc, true_or, if_true, htake, hdrop, List.head?_nil, hv]
  simp [lex, hv]

theorem literalValue_toDigits (n : Nat) (hn0 : 0 < n) (hn : n < 10 ^ 15) :
    literalValue (Nat.toDigits 10 n) [] = some (JSNumber.canon false n 0) := by
  have hlen : (Nat.toDigits 10 n).length ≤ 15 := by
    rw [toDigits_length n hn0]
    have : Nat.log 10 n < 15 := by
      apply (Nat.pow_lt_pow_iff_right (by decide : 1 < 10)).mp
      exact lt_of_le_of_lt (Nat.pow_log_le_self 10 (Nat.pos_iff_ne_zero.mp hn0)) hn
    omega
  have hpos : 0 < (Nat.toDigits 10 n).length := by
    rw [toDigits_length n hn0]
    omega
  obtain ⟨c, rest, hcr, hc0⟩ := toDigits_head n hn0
  unfold literalValue
  rw [if_neg (by simp only [List.length_nil]; omega), if_neg (by
    rw [hcr]
    simp [hc0])]
  simp only [List.append_nil, List.length_nil, Nat.pow_zero, digitsValue_toDigits n hn0]
  rw [JSNumber.ofNat_exact n hn0 (lt_trans hn (by decide))]

theorem eval_literal (s : Bool) (c : Char) (rest : Text) (v : JSNumber)
    (hc : isDigit c = true) (hrest : ∀ d ∈ rest, isDigit d = true ∨ d = '.')
    (hlex : lex ((c :: rest).length + 1) (c :: rest) = some [Token.num v]) :
    runFunction (normalize ((if s then ['-'] else []) ++ c :: rest)) =
      .ok (if s then JSNumber.neg v else v) := by
  have hplain : ∀ x ∈ (if s then ['-'] else []) ++ c :: rest,
      isDigit x = true ∨ x = '-' ∨ x = '.' := by
    intro x hx
    rcases List.mem_append.mp hx with h | h
    · cases s with
      | false => cases h
      | true => exact Or.inr (Or.inl (List.mem_singleton.mp h))
    · rcases List.mem_cons.mp h with h | h
      · exact Or.inl (h ▸ hc)
      · rcases hrest x h with h | h
        · exact Or.inl h
        · exact Or.inr (Or.inr h)
  rw [normalize_numeric _ hplain]
  exact runFunction_signed s c rest v hc hlex

theorem digitsValue_zeros (z : Nat) (ds : Text) :
    digitsValue (List.replicate z '0' ++ ds) = digitsValue ds := by
  unfold digitsValue
  rw [List.foldl_append]
  congr 1
  induction z with
  | zero => rfl
  | succ z ih =>
    rw [List.replicate_succ, List.foldl_cons]
    exact ih

/-- The plain formats of Number::toString, behind an optional `-`, evaluate to
the Number that the digits read back as. -/
theorem eval_format (s : Bool) (d K : Nat) (m : Int) (v : JSNumber) (hK1 : 1 ≤ K)
    (hKm : (K : Int) ≤ m + 9) (hK16 : K ≤ 16) (hd1 : 10 ^ (K - 1) ≤ d) (hd2 : d < 10 ^ K)
    (hm1 : -5 ≤ m) (hm2 : m ≤ 8)
    (hv : JSNumber.roundQuot false (JSNumber.decFrac d (m - K)).1
      (JSNumber.decFrac d (m - K)).2 = v) :
    runFunction (normalize ((if s then ['-'] else []) ++
      JSNumber.formatDigits (Nat.toDigits 10 d) m)) = .ok (if s then JSNumber.neg v else v) := by
  have hd0 : 0 < d := lt_of_lt_of_le (Nat.pow_pos (by decide)) hd1
  have hlen : (Nat.toDigits 10 d).length = K := by
    rw [toDigits_length _ hd0, Nat.log_eq_of_pow_le_of_lt_pow hd1 (by
      have : K - 1 + 1 = K := by omega
      rw [this]
      exact hd2)]
    omega
  have hdig := toDigits_isDigit d hd0
  have hval := digitsValue_toDigits d hd0
  obtain ⟨c, rest, hcr, hc0⟩ := toDigits_head d hd0
  unfold JSNumber.formatDigits
  simp only [hlen]
  by_cases ha : (K : Int) ≤ m
  · -- an integer
    rw [if_pos (show (K : Int) ≤ m ∧ m ≤ 21 from ⟨ha, by omega⟩)]
    obtain ⟨j, hj⟩ : ∃ j : Nat, m - (K : Int) = (j : Int) := ⟨(m - K).natAbs, by omega⟩
    rw [hj, JSNumber.decFrac_natCast] at hv
    rw [hj, Int.natAbs_ofNat, ← toDigits_mul_pow d j hd0]
    have hx0 : 0 < d * 10 ^ j := Nat.mul_pos hd0 (Nat.pow_pos (by decide))
    have hx : d * 10 ^ j < 10 ^ 15 := by
      have h1 : d * 10 ^ j < 10 ^ K * 10 ^ j :=
        Nat.mul_lt_mul_of_lt_of_le hd2 (le_refl _) (Nat.pow_pos (by decide))
      rw [← Nat.pow_add] at h1
      exact lt_of_lt_of_le h1 (Nat.pow_le_pow_right (by decide) (by omega))
    have hlit := literalValue_toDigits (d * 10 ^ j) hx0 hx
    rw [← JSNumber.ofNat_exact _ hx0 (lt_trans hx (by decide)), hv] at hlit
    have hdig2 := toDigits_isDigit (d * 10 ^ j) hx0
    obtain ⟨c2, rest2, hcr2, _⟩ := toDigits_head (d * 10 ^ j) hx0
    rw [hcr2] at hlit hdig2 ⊢
    exact eval_literal s c2 rest2 v (hdig2 c2 (List.mem_cons_self _ _))
      (fun x hx => Or.inl (hdig2 x (List.mem_cons_of_mem _ hx)))
      (lex_digits c2 rest2 v hdig2 hlit)
  · rw [if_neg (show ¬ ((K : Int) ≤ m ∧ m ≤ 21) from fun h => ha h.1)]
    have hneg : m - (K : Int) < 0 := by omega
    have hdec : JSNumber.decFrac d (m - K) = (d, 10 ^ (m - (K : Int)).natAbs) := by
      unfold JSNumber.decFrac
      rw [if_pos hneg]
    rw [hdec] at hv
    by_cases hb : 0 < m
    · -- digits on both sides of the point
      rw [if_pos (show 0 < m ∧ m ≤ 21 from ⟨hb, by omega⟩)]
      obtain ⟨j, hj⟩ : ∃ j : Nat, m = ((j + 1 : Nat) : Int) := ⟨m.natAbs - 1, by omega⟩
      subst hj
      rw [Int.natAbs_ofNat, hcr, List.take_succ_cons, List.drop_succ_cons]
      have hlenr : rest.length + 1 = K := by
        rw [← hlen, hcr]
        rfl
      have hip : ∀ x ∈ c :: rest.take j, isDigit x = true := by
        intro x hx
        rcases List.mem_cons.mp hx with h | h
        · rw [h]
          exact hdig c (by rw [hcr]; exact List.mem_cons_self _ _)
        · exact hdig x (by rw [hcr]; exact List.mem_cons_of_mem _ (List.mem_of_mem_take h))
      have hfp : ∀ x ∈ rest.drop j, isDigit x = true := fun x hx =>
        hdig x (by rw [hcr]; exact List.mem_cons_of_mem _ (List.mem_of_mem_drop hx))
      have hlit : literalValue (c :: rest.take j) (rest.drop j) = some v := by
        unfold literalValue
        have hl : (c :: rest.take j).length + (rest.drop j).length = K := by
          simp only [List.length_cons, List.length_take, List.length_drop]
          omega
        rw [if_neg (by rw [hl]; omega), if_neg (by simp [hc0])]
        have hcat : (c :: rest.take j) ++ rest.drop j = Nat.toDigits 10 d := by
          rw [hcr, List.cons_append, List.take_append_drop]
        have hfl : (rest.drop j).length = ((j + 1 : Nat) - (K : Int)).natAbs := by
          rw [List.length_drop]
          omega
        rw [hcat, hval, hfl, hv]
      have := eval_literal s c (rest.take j ++ '.' :: rest.drop j) v (hip c (List.mem_cons_self _ _))
        (by
          intro x hx
          rcases List.mem_append.mp hx with h | h
          · exact Or.inl (hip x (List.mem_cons_of_mem _ h))
          · rcases List.mem_cons.mp h with h | h
            · exact Or.inr h
            · exact Or.inl (hfp x h))
        (lex_fraction c (rest.take j) (rest.drop j) v hip hfp hlit)
      simpa using this
    · -- zeros after the point
      rw [if_neg (show ¬ (0 < m ∧ m ≤ 21) from fun h => hb h.1),
        if_pos (show -6 < m ∧ m ≤ 0 from ⟨by omega, by omega⟩)]
      obtain ⟨z, hz⟩ : ∃ z : Nat, m = -(z : Int) := ⟨m.natAbs, by omega⟩
      subst hz
      rw [Int.natAbs_neg, Int.natAbs_ofNat]
      have hfp : ∀ x ∈ List.replicate z '0' ++ Nat.toDigits 10 d, isDigit x = true := by
        intro x hx
        rcases List.mem_append.mp hx with h | h
        · rw [(List.mem_replicate.mp h).2]
          decide
        · exact hdig x h
      have hip : ∀ x ∈ ['0'], isDigit x = true := by
        intro x hx
        rw [List.mem_singleton.mp hx]
        decide
      have hlit : literalValue ['0'] (List.replicate z '0' ++ Nat.toDigits 10 d) = some v := by
        unfold literalValue
        have hl : (['0'] : Text).length + (List.replicate z '0' ++ Nat.toDigits 10 d).length =
            1 + z + K := by
          simp only [List.length_cons, List.length_nil, List.length_append, List.length_replicate,
            hlen]
          omega
        rw [if_neg (by rw [hl]; omega), if_neg (by simp)]
        have hcat : digitsValue (['0'] ++ (List.replicate z '0' ++ Nat.toDigits 10 d)) = d := by
          have := digitsValue_zeros (z + 1) (Nat.toDigits 10 d)
          rw [List.replicate_succ] at this
          exact this.trans hval
        have hfl : (List.replicate z '0' ++ Nat.toDigits 10 d).length =
            (-(z : Int) - (K : Int)).natAbs := by
          rw [List.length_append, List.length_replicate, hlen]
          omega
        rw [hcat, hfl, hv]
      have := eval_literal s '0' ('.' :: (List.replicate z '0' ++ Nat.toDigits 10 d)) v (by decide)
        (by
          intro x hx
          rcases List.mem_cons.mp hx with h | h
          · exact Or.inr h
          · exact Or.inl (hfp x h))
        (lex_fraction '0' [] _ v hip hfp hlit)
      simpa using this

/-- The text of the Number nearest to `±n / 10^9` evaluates to that Number, for
`1000 ≤ n < 4194304 * 10^9`. -/
theorem eval_nearest (s : Bool) (n : Nat) (hn1 : 1000 ≤ n) (hn2 : n < 4194304 * 10 ^ 9) :
    runFunction (normalize (JSNumber.toString (JSNumber.roundQuot s n (10 ^ 9)))) =
      .ok (JSNumber.roundQuot s n (10 ^ 9)) := by
  by_cases h1000 : n = 1000
  · subst h1000
    revert s
    decide!
  · obtain ⟨o, e, ho, ho2, he1, he2, hrq, herr, _⟩ := JSNumber.nearest_props n hn1 hn2
    rw [hrq s]
    obtain ⟨⟨p, q⟩, hpq⟩ : ∃ pq : Nat × Nat, JSNumber.fracOf o e = pq := exists_eq'
    obtain ⟨⟨d, m⟩, hsh⟩ : ∃ dm : Nat × Int, JSNumber.shortest (.fin false o e) p q
      (JSNumber.decExponent p q) 17 1 = dm := exists_eq'
    have hsh' : JSNumber.shortest (.fin false o e) (JSNumber.fracOf o e).1 (JSNumber.fracOf o e).2
        (JSNumber.decExponent (JSNumber.fracOf o e).1 (JSNumber.fracOf o e).2) 17 1 = (d, m) := by
      rw [hpq]
      exact hsh
    obtain ⟨K, hK1, hK2, hK3, hK4, hK5, hm1, hm2, hv⟩ :=
      JSNumber.nearest_shortest n (by omega) hn2 o e ho.pos ho2 he1 he2 (hrq false) herr d m hsh'
    have hfmt := eval_format s d K m _ hK1 hK2 hK3 hK4 hK5 hm1 hm2 hv
    have hts : JSNumber.toString (.fin s o e) =
        (if s then ['-'] else []) ++ JSNumber.formatDigits (Nat.toDigits 10 d) m := by
      simp only [JSNumber.toString, if_neg (Nat.pos_iff_ne_zero.mp ho.pos), hpq, hsh]
    rw [hts, hfmt]
    cases s <;> rfl

/-- When the text `r` evaluates to a Number whose rounded text is `r` again,
`compute` on the expression `r` stores the result `r` and changes nothing else. -/
theorem compute_text (c : Calculator) (r : Text) (w : JSNumber)
    (hev : runFunction (normalize r) = .ok w) (h9 : JSNumber.toString (round9 w) = r)
    (hc : c.expression = r) : compute c = some { c with result := r } := by
  unfold compute
  rw [hc, hev]
  simp only [finish, h9, addToHistory, pushHistory, hc, or_true, if_true]

/-- Every result text of the three ranges evaluates to a Number whose rounded
text is the same text. -/
theorem eval_result (s : Bool) (n : Nat)
    (hn : n = 0 ∨ (1000 ≤ n ∧ n < 4194304 * 10 ^ 9) ∨ (10 ^ 9 ∣ n ∧ n ≤ 4611686018 * 10 ^ 9)) :
    ∃ w : JSNumber,
      runFunction (normalize (JSNumber.toString (JSNumber.roundQuot s n (10 ^ 9)))) = .ok w ∧
      JSNumber.toString (round9 w) = JSNumber.toString (JSNumber.roundQuot s n (10 ^ 9)) := by
  rcases hn with h | h | h
  · subst h
    refine ⟨.fin false 0 0, ?_, ?_⟩
    · revert s
      decide!
    · revert s
      decide!
  · refine ⟨_, eval_nearest s n h.1 h.2, ?_⟩
    rw [JSNumber.round9_nearest s n h.1 h.2]
  · obtain ⟨⟨z, rfl⟩, hle⟩ := h
    by_cases hz0 : z = 0
    · subst hz0
      refine ⟨.fin false 0 0, ?_, ?_⟩
      · revert s
        decide!
      · revert s
        decide!
    · have hz0' : 0 < z := Nat.pos_of_ne_zero hz0
      have hz : z ≤ 4611686018 := by
        have : 10 ^ 9 * z ≤ 10 ^ 9 * 4611686018 := by
          rw [Nat.mul_comm (10 ^ 9) 4611686018]
          exact hle
        exact Nat.le_of_mul_le_mul_left this (by decide)
      have hz5 : z * 5 ^ 9 < 2 ^ 53 :=
        lt_of_le_of_lt (Nat.mul_le_mul_right _ hz) (by decide)
      have hz53 : z < 2 ^ 53 := lt_of_le_of_lt hz (by decide)
      have hz15 : z < 10 ^ 15 := lt_of_le_of_lt hz (by decide)
      rw [Nat.mul_comm, JSNumber.roundQuot_billion_mul s z hz0' hz53,
        JSNumber.toString_int s z hz0' hz15]
      refine ⟨JSNumber.canon s z 0, ?_, ?_⟩
      · have hdig := toDigits_isDigit z hz0'
        obtain ⟨c, rest, hcr, _⟩ := toDigits_head z hz0'
        have hlit := literalValue_toDigits z hz0' hz15
        rw [hcr] at hdig hlit ⊢
        have := eval_literal s c rest _ (hdig c (List.mem_cons_self _ _))
          (fun x hx => Or.inl (hdig x (List.mem_cons_of_mem _ hx)))
          (lex_digits c rest _ hdig hlit)
        rw [this]
        cases s <;> rfl
      · rw [JSNumber.round9_integer s z hz0' hz5, JSNumber.toString_int s z hz0' hz15]

/-! ## Re-evaluation of a result -/

/-- C4 (as stated, refuted): re-evaluation of a result is not idempotent, in two
ways.  A result written in exponent notation is misread: `compute` on
`0.0000001` yields `1e-7`, whose `e` is rewritten to `Math.E`, so `compute` on
`1e-7` yields `-4.281718172` (and `0.000000999` yields `9.99e-7`, which
yields `20.155635466`).  A result in plain notation drifts once the product
with `1000000000` is no longer exact: `30000000÷7` yields
`4285714.285714286`, which yields `4285714.285714287`;
`4194304.0000000065` yields `4194304.000000007`, which yields
`4194304.000000008`; the bare number `4611686019` yields
`4611686019.000001`. -/
theorem compute_not_idempotent :
    compute { Calculator.new with expression := "0.0000001".toList } =
      some { expression := "1e-7".toList, result := "1e-7".toList, locale := "en".toList,
             history := [⟨"0.0000001".toList, "1e-7".toList⟩] } ∧
    normalize "1e-7".toList = "1*Math.E-7".toList ∧
    compute { Calculator.new with expression := "1e-7".toList } =
      some { expression := "-4.281718172".toList, result := "-4.281718172".toList,
             locale := "en".toList,
             history := [⟨"1e-7".toList, "-4.281718172".toList⟩] } ∧
    (compute { Calculator.new with expression := "0.000000999".toList }).map
      (fun c => c.expression) = some "9.99e-7".toList ∧
    (compute { Calculator.new with expression := "9.99e-7".toList }).map
      (fun c => c.expression) = some "20.155635466".toList ∧
    compute { Calculator.new with expression := "30000000÷7".toList } =
      some { expression := "4285714.285714286".toList, result := "4285714.285714286".toList,
             locale := "en".toList,
             history := [⟨"30000000÷7".toList, "4285714.285714286".toList⟩] } ∧
    compute { Calculator.new with expression := "4285714.285714286".toList } =
      some { expression := "4285714.285714287".toList, result := "4285714.285714287".toList,
             locale := "en".toList,
             history := [⟨"4285714.285714286".toList, "4285714.285714287".toList⟩] } ∧
    (compute { Calculator.new with expression := "4194304.0000000065".toList }).map
      (fun c => c.expression) = some "4194304.000000007".toList ∧
    (compute { Calculator.new with expression := "4194304.000000007".toList }).map
      (fun c => c.expression) = some "4194304.000000008".toList ∧
    (compute { Calculator.new with expression := "4611686019".toList }).map
      (fun c => c.expression) = some "4611686019.000001".toList := by
  decide!

/-- C4 (amended): let `compute` evaluate the expression to a Number whose
rounding to nine decimals is the Number nearest to `±n / 1000000000`, where `n`
is zero, or `1000 ≤ n < 4194304000000000` (a result of magnitude from
`0.000001` to below `4194304`), or `n` is a multiple of `1000000000` up to
`4611686018000000000` (an integer result of magnitude at most `4611686018`).
Then `compute` succeeds and leaves a state whose expression and result are
the text `r` of that Number, `compute` on that state returns the same state,
and `compute` on every state whose expression is `r` leaves the expression,
the history and the locale as they were and stores the result `r`:
re-evaluation of such a result is idempotent. -/
theorem compute_idempotent_decimal (c : Calculator) (res : JSNumber) (s : Bool) (n : Nat)
    (hrun : runFunction (normalize c.expression) = .ok res)
    (hres : round9 res = JSNumber.roundQuot s n (10 ^ 9))
    (hn : n = 0 ∨ (1000 ≤ n ∧ n < 4194304 * 10 ^ 9) ∨
      (10 ^ 9 ∣ n ∧ n ≤ 4611686018 * 10 ^ 9)) :
    ∃ c' : Calculator, compute c = some c' ∧
      c'.expression = JSNumber.toString (JSNumber.roundQuot s n (10 ^ 9)) ∧
      c'.result = JSNumber.toString (JSNumber.roundQuot s n (10 ^ 9)) ∧
      compute c' = some c' ∧
      ∀ c2 : Calculator, c2.expression = JSNumber.toString (JSNumber.roundQuot s n (10 ^ 9)) →
        compute c2 =
          some { c2 with result := JSNumber.toString (JSNumber.roundQuot s n (10 ^ 9)) } := by
  obtain ⟨w, hev, h9⟩ := eval_result s n hn
  refine ⟨finish c (some res), ?_, ?_, ?_, ?_, ?_⟩
  · unfold compute
    rw [hrun]
  · simp only [finish, hres, addToHistory]
  · simp only [finish, hres, addToHistory]
  · have := compute_text (finish c (some res)) _ w hev h9 (by simp only [finish, hres, addToHistory])
    rw [this]
    simp only [finish, hres, addToHistory]
  · intro c2 hc2
    exact compute_text c2 _ w hev h9 hc2

theorem compute_idempotent_decimal_witness :
    runFunction (normalize "1÷3".toList) = .ok (JSNumber.roundQuot false 1 3) ∧
    round9 (JSNumber.roundQuot false 1 3) = JSNumber.roundQuot false 333333333 (10 ^ 9) ∧
    JSNumber.toString (JSNumber.roundQuot false 333333333 (10 ^ 9)) = "0.333333333".toList ∧
    ∃ c' : Calculator,
      compute { Calculator.new with expression := "1÷3".toList } = some c' ∧
      c'.expression = JSNumber.toString (JSNumber.roundQuot false 333333333 (10 ^ 9)) ∧
      c'.result = JSNumber.toString (JSNumber.roundQuot false 333333333 (10 ^ 9)) ∧
      compute c' = some c' ∧
      ∀ c2 : Calculator,
        c2.expression = JSNumber.toString (JSNumber.roundQuot false 333333333 (10 ^ 9)) →
        compute c2 = some { c2 with
          result := JSNumber.toString (JSNumber.roundQuot false 333333333 (10 ^ 9)) } :=
  ⟨by decide!, by decide!, by decide!,
    compute_idempotent_decimal { Calculator.new with expression := "1÷3".toList }
      (JSNumber.roundQuot false 1 3) false 333333333 (by decide!) (by decide!)
      (Or.inr (Or.inl (by decide)))⟩

end Calculator
